import Mathlib

/-!
# columnize: a shallow embedding of `Columnize` and its options

The Go package `columnize` (file `columnize.go`) renders a table of string
cells as column-aligned text. This file embeds the package in Lean and proves
properties of the embedded code.

Modelling conventions.

* A Go `string` is an immutable sequence of bytes: `GoString := List UInt8`.
  `len(s)` is `s.length`, `append(b, s...)` is `b ++ s`.
* `runewidth.StringWidth` belongs to an external library. It is a parameter
  `sw : GoString → Nat` of every definition that measures text (the library
  returns a sum of per-character widths, never a negative number).
* Go `int` values that may be negative (`cnt`, `size`, `len(b)-1`) are `Int`;
  64-bit overflow is not modelled.
* The package-level variable `_spaces` is threaded through `Columnize`
  explicitly: a call takes the current cache and returns the new cache next to
  its outcome.
* A run-time panic is an `Except.error` carrying the kind of panic.
* `Columnize` takes the option values the package builds (`Option`) and sets no
  limit on the capacity `make` grants. `ColumnizeRuntime` models the same
  function with option values that may be `nil` and with the limit of `make`;
  the two agree when no option is `nil` and the estimated capacity is within
  the limit (`ColumnizeRuntime_within_limit`). The exhaustion of memory
  elsewhere than at `make` is not modelled.
-/

namespace columnize

/-- A Go string: a sequence of bytes. -/
abbrev GoString := List UInt8

/-- The byte of `'\n'`. -/
def newline : UInt8 := 10

/-- The byte of `' '`. -/
def space : UInt8 := 32

/-- The run-time panics `Columnize` can raise. -/
inductive Panic where
  /-- `widths[i]` with `i` out of range. -/
  | indexOutOfRange
  /-- `_spaces[:cnt]` with `cnt < 0` or `cnt > len(_spaces)`. -/
  | sliceBounds
  /-- `make([]byte, 0, size)` with `size < 0` or `size` above the allocation
  limit of the runtime. -/
  | makesliceCap
  /-- `unsafe.String(p, n)` with `n < 0`. -/
  | unsafeStringLen
  /-- `opt(&config)` with `opt == nil`. -/
  | nilFuncCall
  deriving DecidableEq, Repr

deriving instance DecidableEq for Except

/-- The Go struct `config`. The field `prefix_` is the source's `prefix`
(a reserved word here). The slice `rows` is `nil` when it is `[]`: the only
writer, `WithHeaders`, stores a slice of length one, and appending to an empty
slice gives the same rows as skipping the append. -/
structure config where
  prefix_ : GoString
  separator : GoString
  rows : List (List GoString)
  deriving DecidableEq, Repr

/-- The Go type `Option` (`func(*config)`), defunctionalised: `config` is not
exported, so the closures returned by `WithPrefix`, `WithSeparator` and
`WithHeaders` are the only option values a caller can build. -/
inductive Option where
  /-- `WithPrefix(prefix)`: sets the prefix before every line. -/
  | WithPrefix (p : GoString)
  /-- `WithSeparator(separator)`: sets the separator between all columns. -/
  | WithSeparator (separator : GoString)
  /-- `WithHeaders(headers...)`: sets the first row as headers. -/
  | WithHeaders (headers : List GoString)
  deriving DecidableEq, Repr

/-- Calling an option on the configuration: the body of each closure. -/
def Option.apply : Option → config → config
  | .WithPrefix p, c => { c with prefix_ := p }
  | .WithSeparator separator, c => { c with separator := separator }
  | .WithHeaders headers, c => { c with rows := [headers] }

/-- The configuration `Columnize` starts from (lines 48-52). -/
def defaultConfig : config :=
  { prefix_ := [], separator := [space, space], rows := [] }

/-- The loop `for _, opt := range opts { opt(&config) }` (lines 53-55). -/
def applyOpts (opts : List Option) (c : config) : config :=
  opts.foldl (fun c opt => opt.apply c) c

/-- The table that is measured and rendered (lines 57-59): the header row, when
one is configured, followed by the data rows. -/
def withHeader (c : config) (rows : List (List GoString)) : List (List GoString) :=
  if c.rows ≠ [] then c.rows ++ rows else rows

/-- The initial value of the package-level `_spaces`: 1024 spaces (line 39). -/
def _spaces : GoString := List.replicate 1024 space

/-- The loop of lines 61-64: the largest cell count of a row. -/
def countColumns (rows : List (List GoString)) : Nat :=
  rows.foldl (fun columns row => max columns row.length) 0

/-- The inner loop of lines 69-71 from cell index `i` on:
`widths[i] = max(widths[i], runewidth.StringWidth(elem))`. -/
def measureRow (sw : GoString → Nat) : Nat → List GoString → List Nat → Except Panic (List Nat)
  | _, [], widths => .ok widths
  | i, elem :: rest, widths =>
    match widths.get? i with
    | none => .error .indexOutOfRange
    | some w => measureRow sw (i + 1) rest (widths.set i (max w (sw elem)))

/-- The outer loop of lines 68-72. -/
def measure (sw : GoString → Nat) : List (List GoString) → List Nat → Except Panic (List Nat)
  | [], widths => .ok widths
  | row :: rest, widths =>
    match measureRow sw 0 row widths with
    | .error e => .error e
    | .ok widths => measure sw rest widths

/-- The value of `widthMax` after the loop of lines 76-79. -/
def widthMax (widths : List Nat) : Nat :=
  widths.foldl (fun m w => max m w) 0

/-- The value of `widthSum` after the loop of lines 76-79. -/
def widthSum (widths : List Nat) : Nat :=
  widths.foldl (fun s w => s + w) 0

/-- The growth check of lines 81-84 on the shared cache. -/
def growSpaces (spaces : GoString) (wmax : Nat) : GoString :=
  if wmax > spaces.length then List.replicate wmax space else spaces

/-- The buffer capacity estimated at line 87. -/
def estimateSize (c : config) (widths : List Nat) (rows : List (List GoString)) : Int :=
  ((c.separator.length : Int) * ((widths.length : Int) - 1) + (widthSum widths : Int))
    * (rows.length : Int)

/-- The slice expression `_spaces[:cnt]`. -/
def sliceTo (spaces : GoString) (cnt : Int) : Except Panic GoString :=
  if cnt < 0 ∨ (spaces.length : Int) < cnt then .error .sliceBounds
  else .ok (spaces.take cnt.toNat)

/-- The inner loop of lines 92-102 from cell index `i` on, for a row of
`columns` cells, appending to the buffer `b`. -/
def renderCells (sw : GoString → Nat) (spaces : GoString) (c : config) (widths : List Nat)
    (columns : Nat) : Nat → List GoString → GoString → Except Panic GoString
  | _, [], b => .ok b
  | i, elem :: rest, b =>
    if (i : Int) = (columns : Int) - 1 then
      renderCells sw spaces c widths columns (i + 1) rest (b ++ elem ++ [newline])
    else
      match widths.get? i with
      | none => .error .indexOutOfRange
      | some w =>
        match sliceTo spaces ((w : Int) - (sw elem : Int)) with
        | .error e => .error e
        | .ok pad =>
          renderCells sw spaces c widths columns (i + 1) rest (b ++ elem ++ pad ++ c.separator)

/-- The outer loop of lines 89-103. -/
def renderRows (sw : GoString → Nat) (spaces : GoString) (c : config) (widths : List Nat) :
    List (List GoString) → GoString → Except Panic GoString
  | [], b => .ok b
  | row :: rest, b =>
    match renderCells sw spaces c widths row.length 0 row (b ++ c.prefix_) with
    | .error e => .error e
    | .ok b => renderRows sw spaces c widths rest b

/-- The expression `unsafe.String(unsafe.SliceData(b), len(b)-1)` of line 104. -/
def unsafeString (b : GoString) : Except Panic GoString :=
  if (b.length : Int) - 1 < 0 then .error .unsafeStringLen
  else .ok (b.take ((b.length : Int) - 1).toNat)

/-- The function `Columnize` (lines 43-105). `spaces` is the value of the
package-level `_spaces` when the call starts; the result is the outcome of the
call (the returned string, or the panic) and the value of `_spaces` when it
ends. -/
def Columnize (sw : GoString → Nat) (spaces : GoString) (rows : List (List GoString))
    (opts : List Option) : Except Panic GoString × GoString :=
  if rows.length = 0 then (.ok [], spaces)
  else
    let config := applyOpts opts defaultConfig
    let rows := withHeader config rows
    let columns := countColumns rows
    match measure sw rows (List.replicate columns 0) with
    | .error e => (.error e, spaces)
    | .ok widths =>
      let spaces := growSpaces spaces (widthMax widths)
      if estimateSize config widths rows < 0 then (.error .makesliceCap, spaces)
      else
        match renderRows sw spaces config widths rows [] with
        | .error e => (.error e, spaces)
        | .ok b => (unsafeString b, spaces)

/-- The cache states the package can be in: the initial value, and the value
left behind by any call of `Columnize` made from such a state. -/
inductive Reachable (sw : GoString → Nat) : GoString → Prop where
  | init : Reachable sw _spaces
  | call {spaces : GoString} (rows : List (List GoString)) (opts : List Option) :
      Reachable sw spaces → Reachable sw (Columnize sw spaces rows opts).2

/-- The bytes of a text of printable ASCII characters. -/
def ascii (s : String) : GoString := s.toList.map (fun ch => ch.toNat.toUInt8)

/-- A width measure for witnesses: one column per byte, which is the display
width of a text of printable ASCII characters. -/
def byteWidth : GoString → Nat := List.length

/-- Every byte of the text is a space. -/
def AllSpaces (s : GoString) : Prop := ∀ b ∈ s, b = space

/-- The width of column `i` in the words of the specification: the maximum
display width among the cells at index `i`, over the rows that have one. -/
def columnWidth (sw : GoString → Nat) (rows : List (List GoString)) (i : Nat) : Nat :=
  rows.foldr (fun row m => match row.get? i with
    | some cell => max (sw cell) m
    | none => m) 0

/-- The configuration a call resolves from its options (lines 48-55). -/
def resolve (opts : List Option) : config :=
  applyOpts opts defaultConfig

/-- The table a call measures and renders: the configured header row, if any,
then the data rows (lines 57-59). -/
def table (opts : List Option) (rows : List (List GoString)) : List (List GoString) :=
  withHeader (resolve opts) rows

/-- The cells of a row from cell index `i` on, as the specification renders
them: each cell but the last is followed by the spaces that fill its column
(`width i` less the display width of the cell) and by the separator; the last
cell stands as it is. -/
def cellsText (sw : GoString → Nat) (c : config) (width : Nat → Nat) :
    Nat → List GoString → GoString
  | _, [] => []
  | _, [last] => last
  | i, cell :: next :: rest =>
    cell ++ List.replicate (width i - sw cell) space ++ c.separator
      ++ cellsText sw c width (i + 1) (next :: rest)

/-- The rendering of a row in the words of the specification: the prefix, then
the cells. -/
def rowText (sw : GoString → Nat) (c : config) (width : Nat → Nat) (row : List GoString) :
    GoString :=
  c.prefix_ ++ cellsText sw c width 0 row

/-- The bytes one pass of the loop of lines 89-103 appends for a row: the
prefix, and for a row with at least one cell its cells and a newline. -/
def rowBytes (sw : GoString → Nat) (c : config) (width : Nat → Nat) (row : List GoString) :
    GoString :=
  c.prefix_ ++ (if row = [] then [] else cellsText sw c width 0 row ++ [newline])

/-- What stands before the cell at index `i` in the rendering of a row: the
prefix, then each earlier cell with its padding and the separator. -/
def textBefore (sw : GoString → Nat) (c : config) (width : Nat → Nat) (row : List GoString) :
    Nat → GoString
  | 0 => c.prefix_
  | i + 1 => textBefore sw c width row i ++
      match row.get? i with
      | some cell => cell ++ List.replicate (width i - sw cell) space ++ c.separator
      | none => []

/-- The summed display width of what stands before the cell at index `i` in the
rendering of a row: of the prefix, and of each earlier cell, its padding and
the separator after it. -/
def widthBefore (sw : GoString → Nat) (c : config) (width : Nat → Nat) (row : List GoString) :
    Nat → Nat
  | 0 => sw c.prefix_
  | i + 1 => widthBefore sw c width row i +
      match row.get? i with
      | some cell => sw cell + sw (List.replicate (width i - sw cell) space) + sw c.separator
      | none => 0

/-- The display offset at which column `i` starts: the display width of the
prefix plus, for each column `j < i`, its width and the display width of the
separator. -/
def columnOffset (sw : GoString → Nat) (c : config) (width : Nat → Nat) (i : Nat) : Nat :=
  sw c.prefix_ + ((List.range i).map (fun j => width j + sw c.separator)).sum

/-- The input of the test `UnmatchedColumnCounts`. -/
def unmatchedColumnCounts : List (List GoString) :=
  [[ascii "Column A", ascii "Column B", ascii "Column C"],
   [ascii "Value A", ascii "Value B"],
   [ascii "Value A", ascii "Value B", ascii "Value C", ascii "Value D"]]

/-- The input of the test `ColumnWidthCalculator`. -/
def columnWidthCalculator : List (List GoString) :=
  [[ascii "Column A", ascii "Column B", ascii "Column C"],
   [ascii "Longer than A", ascii "Longer than B", ascii "Longer than C"],
   [ascii "short", ascii "short", ascii "short"]]

/-- Whether the option is a `WithHeaders`. -/
def Option.isWithHeaders : Option → Bool
  | .WithHeaders _ => true
  | _ => false

/-- Whether the option is a `WithPrefix`. -/
def Option.isWithPrefix : Option → Bool
  | .WithPrefix _ => true
  | _ => false

/-- Whether the option is a `WithSeparator`. -/
def Option.isWithSeparator : Option → Bool
  | .WithSeparator _ => true
  | _ => false

/-- The number of newline-separated lines of a text. -/
def lineCount (s : GoString) : Nat :=
  s.count newline + 1

/-- One when the option list uses a header option, zero otherwise. -/
def headerCount (opts : List Option) : Nat :=
  if opts.any Option.isWithHeaders then 1 else 0

/-- The fields of `config`. -/
inductive Field where
  | prefix_
  | separator
  | rows
  deriving DecidableEq, Repr

/-- The field of `config` an option writes. -/
def Option.field : Option → Field
  | .WithPrefix _ => .prefix_
  | .WithSeparator _ => .separator
  | .WithHeaders _ => .rows

/-- The input of the test `ListOfStringsInput`. -/
def listOfStringsInput : List (List GoString) :=
  [[ascii "Column A", ascii "Column B", ascii "Column C"],
   [ascii "x", ascii "y", ascii "z"]]

/-- A table whose first column is 1025 wide, one more than the initial cache. -/
def wideCellTable : List (List GoString) :=
  [[List.replicate 1025 97, ascii "b"]]

/-- The first code point of a Go string and the number of bytes it takes, as
`for _, r := range s` decodes it (UTF-8): a byte that starts no well-formed
sequence gives U+FFFD and takes one byte. -/
def decodeOne : GoString → Nat × Nat
  | [] => (0xFFFD, 0)
  | b0 :: rest =>
    let x := b0.toNat
    if x < 0x80 then (x, 1)
    else if x < 0xC2 ∨ 0xF4 < x then (0xFFFD, 1)
    else
      let lo := if x = 0xE0 then 0xA0 else if x = 0xF0 then 0x90 else 0x80
      let hi := if x = 0xED then 0x9F else if x = 0xF4 then 0x8F else 0xBF
      match rest with
      | [] => (0xFFFD, 1)
      | b1 :: rest1 =>
        let y := b1.toNat
        if y < lo ∨ hi < y then (0xFFFD, 1)
        else if x < 0xE0 then ((x % 32) * 64 + y % 64, 2)
        else
          match rest1 with
          | [] => (0xFFFD, 1)
          | b2 :: rest2 =>
            let z := b2.toNat
            if z < 0x80 ∨ 0xBF < z then (0xFFFD, 1)
            else if x < 0xF0 then ((x % 16) * 4096 + (y % 64) * 64 + z % 64, 3)
            else
              match rest2 with
              | [] => (0xFFFD, 1)
              | b3 :: _ =>
                let w := b3.toNat
                if w < 0x80 ∨ 0xBF < w then (0xFFFD, 1)
                else ((x % 8) * 262144 + (y % 64) * 4096 + (z % 64) * 64 + w % 64, 4)

/-- The code points of a text, decoded one after the other; `fuel` bounds the
number of code points, and the length of the text is always enough. -/
def decodeRunesFuel : Nat → GoString → List Nat
  | 0, _ => []
  | fuel + 1, s =>
    match s with
    | [] => []
    | _ :: _ => (decodeOne s).1 :: decodeRunesFuel fuel (s.drop (decodeOne s).2)

/-- The code points of a Go string, in order. -/
def decodeRunes (s : GoString) : List Nat :=
  decodeRunesFuel s.length s

/-- Modelled from the spec: the display width of one code point (section 4.2).
The sources hold no width table; `wide` and `zeroWidth` stand for the standard
East-Asian-width and zero-width classification. A zero-width code point takes
no column, a wide one two, any other one. -/
def runeWidth (wide zeroWidth : Nat → Bool) (r : Nat) : Nat :=
  if zeroWidth r then 0 else if wide r then 2 else 1

/-- Modelled from the spec: the display-width measurer `stringWidth` that the
test `TestStringWidth` calls (section 4.2). It is not among the sources, where
`Columnize` calls `runewidth.StringWidth` of an external library. The width of
a text is the sum of the display widths of its code points, iterating by code
point and not by byte. -/
def stringWidth (wide zeroWidth : Nat → Bool) (s : GoString) : Nat :=
  ((decodeRunes s).map (runeWidth wide zeroWidth)).sum

/-- An excerpt of the width table for witnesses: the CJK unified ideographs
U+4E00..U+9FFF are wide. -/
def sampleWide (r : Nat) : Bool :=
  decide (0x4E00 ≤ r ∧ r ≤ 0x9FFF)

/-- An excerpt of the width table for witnesses: the control characters and the
combining diacritical marks U+0300..U+036F take no column. -/
def sampleZeroWidth (r : Nat) : Bool :=
  decide (r < 0x20 ∨ (0x7F ≤ r ∧ r < 0xA0) ∨ (0x300 ≤ r ∧ r ≤ 0x36F))

/-- A table with a cell of two characters of which one is wide (`日x`, the bytes
E6 97 A5 78) and a cell of two ASCII characters (`ab`) in its first column. -/
def wideCharTable : List (List GoString) :=
  [[ascii "Column A", ascii "B"],
   [[0xE6, 0x97, 0xA5, 0x78], ascii "y"],
   [ascii "ab", ascii "z"]]

/-- The sum of the widths of the `k` columns from column `i` on. -/
def widthsFrom (width : Nat → Nat) : Nat → Nat → Nat
  | _, 0 => 0
  | i, k + 1 => width i + widthsFrom width (i + 1) k

/-- The newline-separated lines of a text, as `strings.Split(s, "\n")` gives
them. -/
def splitLines : GoString → List GoString
  | [] => [[]]
  | b :: rest =>
    if b = newline then [] :: splitLines rest
    else
      match splitLines rest with
      | line :: lines => (b :: line) :: lines
      | [] => [[b]]

/-- A table whose middle row has no cell. -/
def rowWithoutCellsTable : List (List GoString) :=
  [[ascii "a", ascii "b"], [], [ascii "c", ascii "d"]]

/-- The table `wideCharTable` with a row of no cell before its last row. -/
def wideCharGapTable : List (List GoString) :=
  [[ascii "Column A", ascii "B"],
   [[0xE6, 0x97, 0xA5, 0x78], ascii "y"],
   [],
   [ascii "ab", ascii "z"]]

/-- A value of the Go type `Option` as a caller can pass it: `nil`, or one of
the closures the package builds. -/
inductive OptionValue where
  | nil
  | closure (opt : Option)
  deriving DecidableEq, Repr

/-- The loop `for _, opt := range opts { opt(&config) }` (lines 53-55) on option
values: calling a `nil` one panics. -/
def applyOptionValues : List OptionValue → config → Except Panic config
  | [], c => .ok c
  | .nil :: _, _ => .error .nilFuncCall
  | .closure opt :: rest, c => applyOptionValues rest (opt.apply c)

/-- The call `make([]byte, 0, size)` of line 88: it panics when the capacity is
negative or above `maxAlloc`, the largest capacity the runtime grants (2^48 on
64-bit Linux). -/
def makeslice (maxAlloc : Nat) (size : Int) : Except Panic Unit :=
  if size < 0 ∨ (maxAlloc : Int) < size then .error .makesliceCap else .ok ()

/-- The function `Columnize` (lines 43-105) with what `Columnize` above leaves
out: option values that may be `nil`, and the limit `maxAlloc` on the capacity
`make` grants. -/
def ColumnizeRuntime (maxAlloc : Nat) (sw : GoString → Nat) (spaces : GoString)
    (rows : List (List GoString)) (opts : List OptionValue) :
    Except Panic GoString × GoString :=
  if rows.length = 0 then (.ok [], spaces)
  else
    match applyOptionValues opts defaultConfig with
    | .error e => (.error e, spaces)
    | .ok config =>
      let rows := withHeader config rows
      let columns := countColumns rows
      match measure sw rows (List.replicate columns 0) with
      | .error e => (.error e, spaces)
      | .ok widths =>
        let spaces := growSpaces spaces (widthMax widths)
        match makeslice maxAlloc (estimateSize config widths rows) with
        | .error e => (.error e, spaces)
        | .ok _ =>
          match renderRows sw spaces config widths rows [] with
          | .error e => (.error e, spaces)
          | .ok b => (unsafeString b, spaces)

/-- The width vector in the words of the specification: one entry for each
column, the width of that column. -/
def widthVector (sw : GoString → Nat) (rows : List (List GoString)) : List Nat :=
  (List.range (countColumns rows)).map (columnWidth sw rows)

/-- The capacity a call passes to `make` (line 87). -/
def capacity (sw : GoString → Nat) (opts : List Option) (rows : List (List GoString)) : Int :=
  estimateSize (resolve opts) (widthVector sw (table opts rows)) (table opts rows)

/-- A ragged table: one row with a cell of `w` bytes, then `n` rows with the
cell `x`. -/
def raggedTable (w n : Nat) : List (List GoString) :=
  [List.replicate w 97] :: List.replicate n [ascii "x"]

/-! ## Measuring: column count and column widths -/

theorem columnWidth_nil (sw : GoString → Nat) (i : Nat) : columnWidth sw [] i = 0 := rfl

theorem columnWidth_cons (sw : GoString → Nat) (row : List GoString)
    (rows : List (List GoString)) (i : Nat) :
    columnWidth sw (row :: rows) i =
      match row.get? i with
      | some cell => max (sw cell) (columnWidth sw rows i)
      | none => columnWidth sw rows i := rfl

theorem foldl_max_ge_init (f : α → Nat) (xs : List α) (m : Nat) :
    m ≤ xs.foldl (fun acc x => max acc (f x)) m := by
  induction xs generalizing m with
  | nil => simp
  | cons x xs ih =>
    simp only [List.foldl_cons]
    exact le_trans (le_max_left _ _) (ih _)

theorem foldl_max_ge_mem (f : α → Nat) (xs : List α) (m : Nat) (x : α) (hx : x ∈ xs) :
    f x ≤ xs.foldl (fun acc x => max acc (f x)) m := by
  induction xs generalizing m with
  | nil => cases hx
  | cons y ys ih =>
    simp only [List.foldl_cons]
    rcases List.mem_cons.mp hx with rfl | h
    · exact le_trans (le_max_right _ _) (foldl_max_ge_init f ys _)
    · exact ih _ h

theorem length_le_countColumns (rows : List (List GoString)) (row : List GoString)
    (h : row ∈ rows) : row.length ≤ countColumns rows :=
  foldl_max_ge_mem List.length rows 0 row h

theorem le_widthMax (widths : List Nat) (w : Nat) (h : w ∈ widths) : w ≤ widthMax widths :=
  foldl_max_ge_mem id widths 0 w h

theorem countColumns_eq_zero (rows : List (List GoString)) :
    countColumns rows = 0 ↔ ∀ row ∈ rows, row = [] := by
  constructor
  · intro h row hr
    have := length_le_countColumns rows row hr
    exact List.length_eq_zero.mp (by omega)
  · intro h
    unfold countColumns
    suffices H : ∀ m, rows.foldl (fun columns row => max columns row.length) m = m from H 0
    induction rows with
    | nil => intro m; rfl
    | cons r rs ih =>
      intro m
      have hr : r = [] := h r (List.mem_cons_self _ _)
      simp only [List.foldl_cons, hr, List.length_nil, Nat.max_zero]
      exact ih (fun row hrow => h row (List.mem_cons_of_mem _ hrow)) m

theorem measureRow_ok (sw : GoString → Nat) (row : List GoString) :
    ∀ (i : Nat) (widths : List Nat), i + row.length ≤ widths.length →
      ∃ W, measureRow sw i row widths = .ok W ∧ W.length = widths.length ∧
        ∀ j, W.getD j 0 =
          if i ≤ j then
            match row.get? (j - i) with
            | some cell => max (widths.getD j 0) (sw cell)
            | none => widths.getD j 0
          else widths.getD j 0 := by
  induction row with
  | nil =>
    intro i widths _
    exact ⟨widths, rfl, rfl, fun j => by simp⟩
  | cons elem rest ih =>
    intro i widths h
    simp only [List.length_cons] at h
    have hi : i < widths.length := by omega
    obtain ⟨W, hW, hlen, hget⟩ := ih (i + 1) (widths.set i (max widths[i] (sw elem)))
      (by simp only [List.length_set]; omega)
    refine ⟨W, ?_, ?_, ?_⟩
    · simp only [measureRow, List.get?_eq_getElem?, List.getElem?_eq_getElem hi]
      exact hW
    · simpa using hlen
    · intro j
      rw [hget j]
      by_cases hij : i ≤ j
      · by_cases hji : j = i
        · subst hji
          simp [List.getD_eq_getElem?_getD, List.getElem?_set, hi]
        · have h1 : i + 1 ≤ j := by omega
          have h2 : j - i = (j - (i + 1)) + 1 := by omega
          simp only [h1, hij, if_true, h2, List.get?_cons_succ]
          have h3 : (widths.set i (max widths[i] (sw elem))).getD j 0 = widths.getD j 0 := by
            simp [List.getD_eq_getElem?_getD, List.getElem?_set, Ne.symm hji]
          rw [h3]
      · have h1 : ¬ (i + 1 ≤ j) := by omega
        simp only [h1, hij, if_false]
        have h2 : i ≠ j := by omega
        simp [List.getD_eq_getElem?_getD, List.getElem?_set, h2]

theorem measure_ok (sw : GoString → Nat) (rows : List (List GoString)) :
    ∀ widths : List Nat, (∀ row ∈ rows, row.length ≤ widths.length) →
      ∃ W, measure sw rows widths = .ok W ∧ W.length = widths.length ∧
        ∀ j, W.getD j 0 = max (widths.getD j 0) (columnWidth sw rows j) := by
  induction rows with
  | nil =>
    intro widths _
    exact ⟨widths, rfl, rfl, fun j => by simp [columnWidth_nil]⟩
  | cons row rest ih =>
    intro widths h
    obtain ⟨W1, hW1, hlen1, hget1⟩ := measureRow_ok sw row 0 widths
      (by have := h row (List.mem_cons_self _ _); omega)
    obtain ⟨W, hW, hlen, hget⟩ := ih W1
      (fun r hr => by rw [hlen1]; exact h r (List.mem_cons_of_mem _ hr))
    refine ⟨W, ?_, by rw [hlen, hlen1], ?_⟩
    · simp only [measure, hW1]
      exact hW
    · intro j
      rw [hget j, hget1 j, columnWidth_cons]
      simp only [Nat.zero_le, if_true, Nat.sub_zero]
      cases row.get? j with
      | none => rfl
      | some cell => exact max_assoc _ _ _

theorem getD_replicate_zero (n j : Nat) : (List.replicate n 0).getD j 0 = 0 := by
  simp [List.getD_eq_getElem?_getD, List.getElem?_replicate]
  split <;> rfl

/-- The measuring pass never fails, and the vector it returns has one entry per
column, each the maximum display width of the cells at its index. -/
theorem measure_table (sw : GoString → Nat) (rows : List (List GoString)) :
    ∃ W, measure sw rows (List.replicate (countColumns rows) 0) = .ok W ∧
      W.length = countColumns rows ∧
      ∀ j, j < countColumns rows → W.get? j = some (columnWidth sw rows j) := by
  obtain ⟨W, hW, hlen, hget⟩ := measure_ok sw rows (List.replicate (countColumns rows) 0)
    (fun row hr => by simpa using length_le_countColumns rows row hr)
  refine ⟨W, hW, by simpa using hlen, ?_⟩
  intro j hj
  have hj2 : j < W.length := by rw [hlen]; simpa using hj
  have := hget j
  rw [getD_replicate_zero, Nat.zero_max] at this
  rw [List.get?_eq_getElem?, List.getElem?_eq_getElem hj2]
  rw [List.getD_eq_getElem?_getD, List.getElem?_eq_getElem hj2] at this
  simpa using this

theorem columnWidth_ge (sw : GoString → Nat) (rows : List (List GoString))
    (row : List GoString) (hr : row ∈ rows) (j : Nat) (cell : GoString)
    (hc : row.get? j = some cell) : sw cell ≤ columnWidth sw rows j := by
  induction rows with
  | nil => cases hr
  | cons r rs ih =>
    rw [columnWidth_cons]
    rcases List.mem_cons.mp hr with rfl | h
    · rw [hc]; exact le_max_left _ _
    · have := ih h
      cases r.get? j with
      | none => exact this
      | some c => exact le_trans this (le_max_right _ _)

/-! ## The padding cache -/

theorem AllSpaces_replicate (n : Nat) : AllSpaces (List.replicate n space) := by
  intro b hb
  exact (List.mem_replicate.mp hb).2

theorem AllSpaces_growSpaces (spaces : GoString) (m : Nat) (h : AllSpaces spaces) :
    AllSpaces (growSpaces spaces m) := by
  unfold growSpaces
  split
  · exact AllSpaces_replicate m
  · exact h

theorem le_length_growSpaces (spaces : GoString) (m : Nat) :
    m ≤ (growSpaces spaces m).length := by
  unfold growSpaces
  split
  · simp
  · omega

theorem AllSpaces_take (spaces : GoString) (n : Nat) (h : AllSpaces spaces)
    (hn : n ≤ spaces.length) : spaces.take n = List.replicate n space := by
  have hs : spaces = List.replicate spaces.length space :=
    List.eq_replicate_iff.mpr ⟨rfl, h⟩
  rw [hs, List.take_replicate, Nat.min_eq_left hn]

theorem sliceTo_ok (spaces : GoString) (w s : Nat) (h : AllSpaces spaces)
    (hsw : s ≤ w) (hw : w ≤ spaces.length) :
    sliceTo spaces ((w : Int) - (s : Int)) = .ok (List.replicate (w - s) space) := by
  have h1 : ¬ ((w : Int) - (s : Int) < 0 ∨ (spaces.length : Int) < (w : Int) - (s : Int)) := by
    omega
  have h2 : ((w : Int) - (s : Int)).toNat = w - s := by omega
  simp only [sliceTo, h1, if_false, h2]
  rw [AllSpaces_take spaces (w - s) h (by omega)]

/-! ## Rendering -/

theorem renderCells_ok (sw : GoString → Nat) (spaces : GoString) (c : config)
    (widths : List Nat) (width : Nat → Nat) (columns : Nat) (hs : AllSpaces spaces)
    (hw : ∀ k, k < columns → widths.get? k = some (width k))
    (hle : ∀ k, k < columns → width k ≤ spaces.length) (cells : List GoString) :
    ∀ (i : Nat) (b : GoString), i + cells.length = columns →
      (∀ j cell, cells.get? j = some cell → sw cell ≤ width (i + j)) →
      renderCells sw spaces c widths columns i cells b =
        .ok (b ++ (if cells = [] then [] else cellsText sw c width i cells ++ [newline])) := by
  induction cells with
  | nil => intro i b _ _; simp [renderCells]
  | cons elem rest ih =>
    intro i b hlen hsw
    simp only [List.length_cons] at hlen
    cases rest with
    | nil =>
      have h1 : (i : Int) = (columns : Int) - 1 := by simp at hlen; omega
      simp [renderCells, h1, cellsText]
    | cons next rest2 =>
      have h1 : ¬ ((i : Int) = (columns : Int) - 1) := by simp at hlen; omega
      have hi : i < columns := by omega
      have hcell : sw elem ≤ width i := by simpa using hsw 0 elem rfl
      have hrec := ih (i + 1) (b ++ elem ++ List.replicate (width i - sw elem) space ++ c.separator)
        (by simp at hlen ⊢; omega)
        (fun j cell hj => by
          have := hsw (j + 1) cell (by simpa using hj)
          rwa [show i + (j + 1) = i + 1 + j by omega] at this)
      rw [renderCells]
      simp only [h1, if_false, hw i hi, sliceTo_ok spaces (width i) (sw elem) hs hcell (hle i hi)]
      rw [hrec]
      simp [cellsText]

theorem renderRows_ok (sw : GoString → Nat) (spaces : GoString) (c : config)
    (widths : List Nat) (width : Nat → Nat) (hs : AllSpaces spaces)
    (hw : ∀ k, k < widths.length → widths.get? k = some (width k))
    (hle : ∀ k, k < widths.length → width k ≤ spaces.length) (rows : List (List GoString)) :
    ∀ b : GoString, (∀ row ∈ rows, row.length ≤ widths.length) →
      (∀ row ∈ rows, ∀ j cell, row.get? j = some cell → sw cell ≤ width j) →
      renderRows sw spaces c widths rows b =
        .ok (b ++ (rows.map (rowBytes sw c width)).flatten) := by
  induction rows with
  | nil => intro b _ _; simp [renderRows]
  | cons row rest ih =>
    intro b hlen hsw
    have hrl := hlen row (List.mem_cons_self _ _)
    have h1 := renderCells_ok sw spaces c widths width row.length hs
      (fun k hk => hw k (by omega)) (fun k hk => hle k (by omega)) row 0 (b ++ c.prefix_)
      (by simp) (fun j cell hj => by simpa using hsw row (List.mem_cons_self _ _) j cell hj)
    rw [renderRows, h1]
    simp only []
    rw [ih _ (fun r hr => hlen r (List.mem_cons_of_mem _ hr))
      (fun r hr => hsw r (List.mem_cons_of_mem _ hr))]
    simp [rowBytes]

/-! ## The outcome of a call -/

theorem widthSum_nil : widthSum [] = 0 := rfl

theorem estimateSize_neg_iff (c : config) (widths : List Nat) (rows : List (List GoString))
    (hrows : rows ≠ []) :
    estimateSize c widths rows < 0 ↔ widths.length = 0 ∧ c.separator ≠ [] := by
  have hr : 0 < (rows.length : Int) := by
    have := List.length_pos.mpr hrows
    omega
  unfold estimateSize
  constructor
  · intro h
    by_contra hne
    have h0 : 0 ≤ (c.separator.length : Int) * ((widths.length : Int) - 1)
        + (widthSum widths : Int) := by
      by_cases hw : widths.length = 0
      · have hsep : c.separator = [] := by
          by_contra hs
          exact hne ⟨hw, hs⟩
        simp [hsep]
      · have h1 : 0 ≤ (widths.length : Int) - 1 := by omega
        have h2 : 0 ≤ (c.separator.length : Int) := by omega
        have h3 := Int.mul_nonneg h2 h1
        omega
    have := Int.mul_nonneg h0 (le_of_lt hr)
    omega
  · rintro ⟨hw, hsep⟩
    have hw2 : widths = [] := List.length_eq_zero.mp hw
    have hl : 0 < (c.separator.length : Int) := by
      have := List.length_pos.mpr hsep
      omega
    subst hw2
    simp only [List.length_nil, widthSum_nil, Nat.cast_zero]
    have : ((c.separator.length : Int) * (0 - 1) + 0) * (rows.length : Int)
        = - ((c.separator.length : Int) * (rows.length : Int)) := by ring
    rw [this]
    have := Int.mul_pos hl hr
    omega

theorem withHeader_ne_nil (c : config) (rows : List (List GoString)) (h : rows ≠ []) :
    withHeader c rows ≠ [] := by
  unfold withHeader
  split
  · simp [h]
  · exact h

/-- The outcome of a call on a table with at least one row, from a cache that
holds only spaces: a panic at `make` when no row has a cell and the separator
is not empty, and otherwise the bytes appended for the rows, less the last
byte. -/
theorem Columnize_outcome (sw : GoString → Nat) (spaces : GoString)
    (rows : List (List GoString)) (opts : List Option) (hs : AllSpaces spaces)
    (hrows : rows ≠ []) :
    (Columnize sw spaces rows opts).1 =
      if countColumns (table opts rows) = 0 ∧ (resolve opts).separator ≠ [] then
        .error .makesliceCap
      else
        unsafeString (((table opts rows).map
          (rowBytes sw (resolve opts) (columnWidth sw (table opts rows)))).flatten) := by
  unfold table resolve
  generalize hc : applyOpts opts defaultConfig = c
  generalize hT : withHeader c rows = T
  have hTne : T ≠ [] := by rw [← hT]; exact withHeader_ne_nil c rows hrows
  obtain ⟨W, hW, hlen, hget⟩ := measure_table sw T
  have hl : ¬ (rows.length = 0) := fun h => hrows (List.length_eq_zero.mp h)
  simp only [Columnize, hl, if_false, hc, hT, hW]
  have hiff := estimateSize_neg_iff c W T hTne
  rw [hlen] at hiff
  by_cases hneg : estimateSize c W T < 0
  · rw [if_pos (hiff.mp hneg)]
    simp only [hneg, if_true]
  · have hneg2 : ¬ (countColumns T = 0 ∧ c.separator ≠ []) := fun h => hneg (hiff.mpr h)
    simp only [hneg, if_false]
    rw [if_neg hneg2]
    have hrender := renderRows_ok sw (growSpaces spaces (widthMax W)) c W (columnWidth sw T)
      (AllSpaces_growSpaces spaces _ hs)
      (fun k hk => hget k (by omega))
      (fun k hk => by
        have h1 := hget k (by omega)
        have h2 : columnWidth sw T k ∈ W := by
          rw [List.get?_eq_getElem?] at h1
          exact List.getElem?_mem h1
        exact le_trans (le_widthMax W _ h2) (le_length_growSpaces spaces _))
      T []
      (fun row hr => by rw [hlen]; exact length_le_countColumns T row hr)
      (fun row hr j cell hj => columnWidth_ge sw T row hr j cell hj)
    rw [hrender]
    simp

theorem Columnize_snd (sw : GoString → Nat) (spaces : GoString)
    (rows : List (List GoString)) (opts : List Option) :
    (Columnize sw spaces rows opts).2 = spaces ∨
      ∃ m, (Columnize sw spaces rows opts).2 = growSpaces spaces m := by
  unfold Columnize
  split
  · exact Or.inl rfl
  · simp only []
    split
    · exact Or.inl rfl
    · split
      · exact Or.inr ⟨_, rfl⟩
      · split
        · exact Or.inr ⟨_, rfl⟩
        · exact Or.inr ⟨_, rfl⟩

/-- Every cache state the package can reach holds only spaces. -/
theorem Reachable.allSpaces {sw : GoString → Nat} {spaces : GoString}
    (h : Reachable sw spaces) : AllSpaces spaces := by
  induction h with
  | init => exact AllSpaces_replicate 1024
  | call rows opts _ ih =>
    rcases Columnize_snd sw _ rows opts with h | ⟨m, h⟩
    · rw [h]; exact ih
    · rw [h]; exact AllSpaces_growSpaces _ m ih

theorem unsafeString_concat (y : GoString) (x : UInt8) : unsafeString (y ++ [x]) = .ok y := by
  have h1 : ¬ (((y ++ [x]).length : Int) - 1 < 0) := by
    simp only [List.length_append, List.length_singleton]; omega
  have h2 : (((y ++ [x]).length : Int) - 1).toNat = y.length := by
    simp only [List.length_append, List.length_singleton]; omega
  simp only [unsafeString, h1, if_false, h2]
  simp

theorem flatten_map_concat (sep : UInt8) (xs : List GoString) (h : xs ≠ []) :
    (xs.map (fun x => x ++ [sep])).flatten = List.intercalate [sep] xs ++ [sep] := by
  induction xs with
  | nil => exact absurd rfl h
  | cons x rest ih =>
    cases rest with
    | nil => simp [List.intercalate, List.intersperse]
    | cons y rest2 =>
      have := ih (by simp)
      simp only [List.map_cons, List.flatten_cons] at this ⊢
      rw [this]
      simp [List.intercalate, List.intersperse]

theorem rowBytes_of_ne_nil (sw : GoString → Nat) (c : config) (width : Nat → Nat)
    (row : List GoString) (h : row ≠ []) :
    rowBytes sw c width row = rowText sw c width row ++ [newline] := by
  simp [rowBytes, rowText, h]

theorem countColumns_ne_zero (rows : List (List GoString)) (row : List GoString)
    (hr : row ∈ rows) (hne : row ≠ []) : countColumns rows ≠ 0 := by
  intro h0
  exact hne ((countColumns_eq_zero rows).mp h0 row hr)

theorem table_ne_nil (opts : List Option) (rows : List (List GoString)) (h : rows ≠ []) :
    table opts rows ≠ [] :=
  withHeader_ne_nil _ rows h

/-- On a table with at least one row whose rows all have a cell, a call from a
cache of spaces returns the rendered rows joined by newlines. -/
theorem Columnize_joined (sw : GoString → Nat) (spaces : GoString)
    (rows : List (List GoString)) (opts : List Option) (hs : AllSpaces spaces)
    (hrows : rows ≠ []) (hcells : ∀ row ∈ table opts rows, row ≠ []) :
    (Columnize sw spaces rows opts).1 =
      .ok (List.intercalate [newline]
        ((table opts rows).map
          (rowText sw (resolve opts) (columnWidth sw (table opts rows))))) := by
  have hT := table_ne_nil opts rows hrows
  obtain ⟨r, hr⟩ := List.exists_mem_of_ne_nil _ hT
  have hcol : ¬ (countColumns (table opts rows) = 0 ∧ (resolve opts).separator ≠ []) :=
    fun h => countColumns_ne_zero _ r hr (hcells r hr) h.1
  rw [Columnize_outcome sw spaces rows opts hs hrows, if_neg hcol]
  have hmap : (table opts rows).map
      (rowBytes sw (resolve opts) (columnWidth sw (table opts rows))) =
      ((table opts rows).map
        (rowText sw (resolve opts) (columnWidth sw (table opts rows)))).map
          (fun x => x ++ [newline]) := by
    rw [List.map_map]
    apply List.map_congr_left
    intro row hrow
    exact rowBytes_of_ne_nil sw _ _ row (hcells row hrow)
  rw [hmap, flatten_map_concat newline _ (by simpa using hT), unsafeString_concat]

/-- Claim C1. For a table with at least one row in which every row, the header
row included when one is configured, has at least one cell, `Columnize` returns
the rendered rows joined by single newlines, with no trailing newline and in
input order (header first). The rendering of a row is the prefix, then each
cell but the last followed by the spaces that fill its column (column width
less the display width of the cell) and the separator, then the last cell as it
is, whatever the length of the row. -/
theorem C1_output_is_rows_joined_by_newlines (sw : GoString → Nat) (spaces : GoString)
    (rows : List (List GoString)) (opts : List Option) (hs : Reachable sw spaces)
    (hrows : rows ≠ []) (hcells : ∀ row ∈ table opts rows, row ≠ []) :
    (Columnize sw spaces rows opts).1 =
      .ok (List.intercalate [newline]
        ((table opts rows).map
          (rowText sw (resolve opts) (columnWidth sw (table opts rows))))) :=
  Columnize_joined sw spaces rows opts hs.allSpaces hrows hcells

set_option maxRecDepth 100000 in
/-- Witness for C1: the table of the test `UnmatchedColumnCounts`, whose second
row is shorter than the widest row, with no options, from the initial cache. -/
theorem C1_output_is_rows_joined_by_newlines_witness :
    (unmatchedColumnCounts ≠ [] ∧ ∀ row ∈ table [] unmatchedColumnCounts, row ≠ []) ∧
      (Columnize byteWidth _spaces unmatchedColumnCounts []).1 =
        .ok (ascii ("Column A  Column B  Column C\n" ++ "Value A   Value B\n"
          ++ "Value A   Value B   Value C   Value D")) :=
  ⟨⟨by decide, by decide⟩,
    (C1_output_is_rows_joined_by_newlines byteWidth _spaces unmatchedColumnCounts []
      Reachable.init (by decide) (by decide)).trans (by decide)⟩

theorem cellsText_cons (sw : GoString → Nat) (c : config) (width : Nat → Nat) (i : Nat)
    (cell : GoString) (rest : List GoString) :
    cellsText sw c width i (cell :: rest) =
      cell ++ (if rest = [] then []
        else List.replicate (width i - sw cell) space ++ c.separator
          ++ cellsText sw c width (i + 1) rest) := by
  cases rest with
  | nil => simp [cellsText]
  | cons next rest2 => simp [cellsText]

theorem rowText_split (sw : GoString → Nat) (c : config) (width : Nat → Nat)
    (row : List GoString) (i : Nat) (hi : i < row.length) :
    rowText sw c width row = textBefore sw c width row i
      ++ cellsText sw c width i (row.drop i) := by
  induction i with
  | zero => simp [rowText, textBefore]
  | succ i ih =>
    have hi2 : i < row.length := by omega
    rw [ih hi2, textBefore, List.get?_eq_getElem?, List.getElem?_eq_getElem hi2]
    rw [List.drop_eq_getElem_cons hi2, cellsText_cons]
    have hne : row.drop (i + 1) ≠ [] := by
      intro h
      have := congrArg List.length h
      simp at this
      omega
    simp [hne]

theorem widthBefore_eq_columnOffset (sw : GoString → Nat)
    (hsp : ∀ n, sw (List.replicate n space) = n) (c : config) (width : Nat → Nat)
    (row : List GoString) (hw : ∀ j cell, row.get? j = some cell → sw cell ≤ width j)
    (i : Nat) (hi : i ≤ row.length) :
    widthBefore sw c width row i = columnOffset sw c width i := by
  induction i with
  | zero => simp [widthBefore, columnOffset]
  | succ i ih =>
    have hi2 : i < row.length := by omega
    have hget : row.get? i = some row[i] := by
      rw [List.get?_eq_getElem?, List.getElem?_eq_getElem hi2]
    have hle := hw i row[i] hget
    have hstep : widthBefore sw c width row (i + 1) = widthBefore sw c width row i
        + (sw row[i] + sw (List.replicate (width i - sw row[i]) space) + sw c.separator) := by
      rw [widthBefore, hget]
    have hoff : columnOffset sw c width (i + 1) = columnOffset sw c width i
        + (width i + sw c.separator) := by
      simp only [columnOffset, List.range_succ, List.map_append, List.sum_append,
        List.map_cons, List.map_nil, List.sum_cons, List.sum_nil]
      omega
    rw [hstep, hoff, ih (by omega), hsp]
    omega

theorem unsafeString_of_ne_nil (b : GoString) (h : b ≠ []) :
    ∃ out last, unsafeString b = .ok out ∧ out ++ [last] = b := by
  refine ⟨b.dropLast, b.getLast h, ?_, List.dropLast_append_getLast h⟩
  conv_lhs => rw [← List.dropLast_append_getLast h]
  exact unsafeString_concat _ _

theorem rowBytes_flatten_ne_nil (sw : GoString → Nat) (c : config) (width : Nat → Nat)
    (rows : List (List GoString)) (row : List GoString) (hr : row ∈ rows) (hne : row ≠ []) :
    (rows.map (rowBytes sw c width)).flatten ≠ [] := by
  intro h
  have h1 := List.flatten_eq_nil_iff.mp h (rowBytes sw c width row)
    (List.mem_map_of_mem _ hr)
  rw [rowBytes_of_ne_nil sw c width row hne] at h1
  simp at h1

/-- The bytes appended for one row are aligned on the columns. For a table with
at least one row, any options, and a cell at index `i` of a row of the rendered table: the call
returns, and what it returns is the bytes appended for the rows less their
last byte; the cell is no wider than its column; in the bytes of its row the
cell comes right after the prefix and the earlier cells, each with its padding
and the separator, and when it is not the last cell of the row it is followed
by exactly (column width - display width of the cell) spaces and then the
separator; and the summed display width of what precedes the cell is
displayWidth(prefix) + the sum over `j < i` of (columnWidth(j) +
displayWidth(separator)), the same for every row. The display width of a run
of `n` spaces is taken to be `n`. -/
theorem rowBytes_columns_aligned (sw : GoString → Nat)
    (hsp : ∀ n, sw (List.replicate n space) = n) (spaces : GoString)
    (rows : List (List GoString)) (opts : List Option) (hs : Reachable sw spaces)
    (hrows : rows ≠ []) (row : List GoString) (hrow : row ∈ table opts rows)
    (i : Nat) (cell : GoString) (hcell : row.get? i = some cell) :
    (∃ out last, (Columnize sw spaces rows opts).1 = .ok out ∧
      out ++ [last] = ((table opts rows).map
        (rowBytes sw (resolve opts) (columnWidth sw (table opts rows)))).flatten) ∧
    sw cell ≤ columnWidth sw (table opts rows) i ∧
    (∃ after, rowBytes sw (resolve opts) (columnWidth sw (table opts rows)) row =
        textBefore sw (resolve opts) (columnWidth sw (table opts rows)) row i
          ++ cell ++ after ∧
      (i + 1 < row.length → ∃ rest, after =
        List.replicate (columnWidth sw (table opts rows) i - sw cell) space
          ++ (resolve opts).separator ++ rest)) ∧
    widthBefore sw (resolve opts) (columnWidth sw (table opts rows)) row i =
      columnOffset sw (resolve opts) (columnWidth sw (table opts rows)) i := by
  have hi : i < row.length := by
    rw [List.get?_eq_getElem?] at hcell
    exact (List.getElem?_eq_some_iff.mp hcell).1
  have hcell2 : row[i] = cell := by
    rw [List.get?_eq_getElem?, List.getElem?_eq_getElem hi] at hcell
    exact Option.some.inj hcell
  have hne : row ≠ [] := by
    intro h; rw [h] at hi; simp at hi
  have hcol : ¬ (countColumns (table opts rows) = 0 ∧ (resolve opts).separator ≠ []) :=
    fun h => countColumns_ne_zero _ row hrow hne h.1
  refine ⟨?_, columnWidth_ge sw _ row hrow i cell hcell, ?_, ?_⟩
  · rw [Columnize_outcome sw spaces rows opts hs.allSpaces hrows, if_neg hcol]
    exact unsafeString_of_ne_nil _ (rowBytes_flatten_ne_nil sw _ _ _ row hrow hne)
  · rw [rowBytes_of_ne_nil sw _ _ row hne, rowText_split sw _ _ row i hi,
      List.drop_eq_getElem_cons hi, cellsText_cons, hcell2]
    refine ⟨(if List.drop (i + 1) row = [] then []
        else List.replicate (columnWidth sw (table opts rows) i - sw cell) space
          ++ (resolve opts).separator
          ++ cellsText sw (resolve opts) (columnWidth sw (table opts rows)) (i + 1)
            (List.drop (i + 1) row)) ++ [newline], by simp only [List.append_assoc], ?_⟩
    intro hnext
    have hne2 : row.drop (i + 1) ≠ [] := by
      intro h
      have := congrArg List.length h
      simp at this
      omega
    refine ⟨cellsText sw (resolve opts) (columnWidth sw (table opts rows)) (i + 1)
      (row.drop (i + 1)) ++ [newline], ?_⟩
    simp [hne2]
  · exact widthBefore_eq_columnOffset sw hsp _ _ row
      (fun j cl hj => columnWidth_ge sw _ row hrow j cl hj) i (le_of_lt hi)

set_option maxRecDepth 100000 in
/-- An instance of `rowBytes_columns_aligned`: the cell `short` at index 1 of the last row of the test
`ColumnWidthCalculator`; it starts at display offset 15, after a column of
width 13 and a separator of width 2. -/
theorem rowBytes_columns_aligned_example :
    ((∀ n, byteWidth (List.replicate n space) = n) ∧ columnWidthCalculator ≠ [] ∧
      [ascii "short", ascii "short", ascii "short"] ∈ table [] columnWidthCalculator ∧
      [ascii "short", ascii "short", ascii "short"].get? 1 = some (ascii "short")) ∧
    widthBefore byteWidth (resolve []) (columnWidth byteWidth (table [] columnWidthCalculator))
        [ascii "short", ascii "short", ascii "short"] 1 =
      columnOffset byteWidth (resolve []) (columnWidth byteWidth (table [] columnWidthCalculator)) 1
    ∧ columnOffset byteWidth (resolve [])
        (columnWidth byteWidth (table [] columnWidthCalculator)) 1 = 15 :=
  ⟨⟨fun n => List.length_replicate n space, by decide, by decide, by decide⟩,
    (rowBytes_columns_aligned byteWidth (fun n => List.length_replicate n space) _spaces
      columnWidthCalculator [] Reachable.init (by decide)
      [ascii "short", ascii "short", ascii "short"] (by decide) 1 (ascii "short")
      (by decide)).2.2.2,
    by decide⟩

/-! ## Options -/

theorem applyOpts_nil (c : config) : applyOpts [] c = c := rfl

theorem applyOpts_cons (o : Option) (opts : List Option) (c : config) :
    applyOpts (o :: opts) c = applyOpts opts (o.apply c) := rfl

theorem applyOpts_append (xs ys : List Option) (c : config) :
    applyOpts (xs ++ ys) c = applyOpts ys (applyOpts xs c) := by
  simp [applyOpts, List.foldl_append]

theorem applyOpts_setRows (opts : List Option) (h : ∀ o ∈ opts, o.isWithHeaders = false)
    (c : config) (r : List (List GoString)) :
    applyOpts opts { c with rows := r } = { applyOpts opts c with rows := r } := by
  induction opts generalizing c with
  | nil => rfl
  | cons o rest ih =>
    have ho := h o (List.mem_cons_self _ _)
    have hrest := fun x hx => h x (List.mem_cons_of_mem _ hx)
    rw [applyOpts_cons, applyOpts_cons]
    cases o with
    | WithPrefix p => exact ih hrest ((Option.WithPrefix p).apply c)
    | WithSeparator s => exact ih hrest ((Option.WithSeparator s).apply c)
    | WithHeaders hd => simp [Option.isWithHeaders] at ho

theorem applyOpts_rows (opts : List Option) (h : ∀ o ∈ opts, o.isWithHeaders = false)
    (c : config) : (applyOpts opts c).rows = c.rows := by
  induction opts generalizing c with
  | nil => rfl
  | cons o rest ih =>
    have ho := h o (List.mem_cons_self _ _)
    rw [applyOpts_cons, ih (fun x hx => h x (List.mem_cons_of_mem _ hx))]
    cases o with
    | WithPrefix p => rfl
    | WithSeparator s => rfl
    | WithHeaders hd => simp [Option.isWithHeaders] at ho

theorem renderCells_setRows (sw : GoString → Nat) (spaces : GoString) (c : config)
    (r : List (List GoString)) (widths : List Nat) (columns : Nat) (cells : List GoString) :
    ∀ (i : Nat) (b : GoString),
      renderCells sw spaces { c with rows := r } widths columns i cells b =
        renderCells sw spaces c widths columns i cells b := by
  induction cells with
  | nil => intro i b; rfl
  | cons elem rest ih =>
    intro i b
    rw [renderCells, renderCells]
    split
    · exact ih _ _
    · split
      · rfl
      · split
        · rfl
        · exact ih _ _

theorem renderRows_setRows (sw : GoString → Nat) (spaces : GoString) (c : config)
    (r : List (List GoString)) (widths : List Nat) (rows : List (List GoString)) :
    ∀ b : GoString, renderRows sw spaces { c with rows := r } widths rows b =
      renderRows sw spaces c widths rows b := by
  induction rows with
  | nil => intro b; rfl
  | cons row rest ih =>
    intro b
    rw [renderRows, renderRows, renderCells_setRows]
    dsimp only
    generalize renderCells sw spaces c widths row.length 0 row (b ++ c.prefix_) = res
    cases res with
    | error e => rfl
    | ok b2 => exact ih b2

/-- Claim C3. For a table with at least one row, a header `h` of any length
(zero cells included) and any other options, before or after it,
`Columnize(rows, ..., WithHeaders(h...), ...)` is `Columnize([h] ++ rows, ...)`:
the same outcome and the same effect on the cache, so the header is measured
and rendered as a first data row. -/
theorem C3_header_is_first_row (sw : GoString → Nat) (spaces : GoString)
    (rows : List (List GoString)) (h : List GoString) (before after : List Option)
    (hrows : rows ≠ [])
    (hbefore : ∀ o ∈ before, o.isWithHeaders = false)
    (hafter : ∀ o ∈ after, o.isWithHeaders = false) :
    Columnize sw spaces rows (before ++ .WithHeaders h :: after) =
      Columnize sw spaces (h :: rows) (before ++ after) := by
  have hl : ¬ (rows.length = 0) := fun e => hrows (List.length_eq_zero.mp e)
  have hc1 : applyOpts (before ++ .WithHeaders h :: after) defaultConfig =
      { applyOpts (before ++ after) defaultConfig with rows := [h] } := by
    rw [applyOpts_append, applyOpts_cons, applyOpts_append]
    exact applyOpts_setRows after hafter _ [h]
  have hc2 : (applyOpts (before ++ after) defaultConfig).rows = [] :=
    applyOpts_rows _ (fun o ho => by
      rcases List.mem_append.mp ho with h1 | h1
      · exact hbefore o h1
      · exact hafter o h1) defaultConfig
  simp only [Columnize, hl, if_false, hc1, List.length_cons, Nat.succ_ne_zero, withHeader, hc2,
    ne_eq, not_true_eq_false, List.cons_ne_nil, not_false_eq_true, if_true, List.singleton_append,
    renderRows_setRows, estimateSize]

/-- Witness for C3: the test `WithHeaders`, and a header of zero cells. -/
theorem C3_header_is_first_row_witness :
    ([[ascii "x", ascii "y", ascii "z"]] ≠ ([] : List (List GoString)) ∧
      (∀ o ∈ [Option.WithPrefix (ascii "> ")], o.isWithHeaders = false) ∧
      (∀ o ∈ ([] : List Option), o.isWithHeaders = false)) ∧
    Columnize byteWidth _spaces [[ascii "x", ascii "y", ascii "z"]]
        ([.WithPrefix (ascii "> ")]
          ++ .WithHeaders [ascii "Column A", ascii "Column B", ascii "Column C"] :: []) =
      Columnize byteWidth _spaces
        ([ascii "Column A", ascii "Column B", ascii "Column C"]
          :: [[ascii "x", ascii "y", ascii "z"]])
        ([.WithPrefix (ascii "> ")] ++ []) :=
  ⟨⟨by decide, by decide, by decide⟩,
    C3_header_is_first_row byteWidth _spaces [[ascii "x", ascii "y", ascii "z"]]
      [ascii "Column A", ascii "Column B", ascii "Column C"] [.WithPrefix (ascii "> ")] []
      (by decide) (by decide) (by decide)⟩

/-- Claim C4. Whatever the options (a prefix, a header, ...), `Columnize` of a
table with zero rows returns the empty string: no prefix, no header, no
newline; it also leaves the cache as it was. -/
theorem C4_no_rows_empty_string (sw : GoString → Nat) (spaces : GoString)
    (opts : List Option) : Columnize sw spaces [] opts = (.ok [], spaces) := by
  simp [Columnize]

/-! ## Counting lines -/

theorem applyOpts_rows_length (opts : List Option) (c : config) :
    (applyOpts opts c).rows.length =
      if opts.any Option.isWithHeaders then 1 else c.rows.length := by
  induction opts generalizing c with
  | nil => rfl
  | cons o rest ih =>
    rw [applyOpts_cons, ih]
    cases o <;> simp [Option.isWithHeaders, Option.apply]

theorem table_length (opts : List Option) (rows : List (List GoString)) :
    (table opts rows).length = rows.length + headerCount opts := by
  have h := applyOpts_rows_length opts defaultConfig
  unfold table withHeader resolve headerCount
  by_cases hany : opts.any Option.isWithHeaders = true
  · rw [if_pos hany] at h
    have hne : (applyOpts opts defaultConfig).rows ≠ [] := by
      intro e; rw [e] at h; simp at h
    rw [if_pos hne, if_pos hany, List.length_append, h]
    omega
  · rw [if_neg hany] at h
    have he : (applyOpts opts defaultConfig).rows = [] :=
      List.length_eq_zero.mp (by rw [h]; rfl)
    rw [if_neg (by simpa using he), if_neg hany]
    rfl

theorem count_intercalate_newline (xs : List GoString) (hne : xs ≠ [])
    (h : ∀ x ∈ xs, newline ∉ x) :
    (List.intercalate [newline] xs).count newline + 1 = xs.length := by
  induction xs with
  | nil => exact absurd rfl hne
  | cons x rest ih =>
    have hx : x.count newline = 0 := List.count_eq_zero.mpr (h x (List.mem_cons_self _ _))
    cases rest with
    | nil => simp [List.intercalate, List.intersperse, hx]
    | cons y rest2 =>
      have := ih (by simp) (fun z hz => h z (List.mem_cons_of_mem _ hz))
      simp only [List.intercalate, List.intersperse, List.flatten_cons, List.count_append,
        List.length_cons] at this ⊢
      rw [hx]
      simp only [List.count_cons_self, List.count_nil]
      omega

theorem newline_ne_space : newline ≠ space := by decide

theorem cellsText_no_newline (sw : GoString → Nat) (c : config) (width : Nat → Nat)
    (hsep : newline ∉ c.separator) (cells : List GoString) :
    ∀ i, (∀ cell ∈ cells, newline ∉ cell) → newline ∉ cellsText sw c width i cells := by
  induction cells with
  | nil => intro i _; simp [cellsText]
  | cons cell rest ih =>
    intro i h
    rw [cellsText_cons]
    have hc := h cell (List.mem_cons_self _ _)
    have hrest := ih (i + 1) (fun x hx => h x (List.mem_cons_of_mem _ hx))
    split
    · simpa using hc
    · simp only [List.mem_append, List.mem_replicate, not_or]
      exact ⟨hc, ⟨fun hh => newline_ne_space hh.2, hsep⟩, hrest⟩

/-- Claim C5, amended. For a table with at least one row in which every row,
the header included, has at least one cell, and in which no cell, nor the
prefix, nor the separator holds a newline byte, `Columnize` returns a text
whose number of newline-separated lines is the number of input rows, plus one
if a header option is used. -/
theorem C5_line_count (sw : GoString → Nat) (spaces : GoString)
    (rows : List (List GoString)) (opts : List Option) (hs : Reachable sw spaces)
    (hrows : rows ≠ []) (hcells : ∀ row ∈ table opts rows, row ≠ [])
    (hnl : ∀ row ∈ table opts rows, ∀ cell ∈ row, newline ∉ cell)
    (hpre : newline ∉ (resolve opts).prefix_) (hsep : newline ∉ (resolve opts).separator) :
    ∃ out, (Columnize sw spaces rows opts).1 = .ok out ∧
      lineCount out = rows.length + headerCount opts := by
  refine ⟨_, Columnize_joined sw spaces rows opts hs.allSpaces hrows hcells, ?_⟩
  unfold lineCount
  rw [count_intercalate_newline _ (by simpa using table_ne_nil opts rows hrows),
    List.length_map, table_length]
  intro x hx
  obtain ⟨row, hrow, rfl⟩ := List.mem_map.mp hx
  unfold rowText
  simp only [List.mem_append, not_or]
  exact ⟨hpre, cellsText_no_newline sw _ _ hsep row 0 (hnl row hrow)⟩


set_option maxRecDepth 100000 in
/-- Witness for C5: the test `WithHeaders`, one data row and a header, two
lines of output. -/
theorem C5_line_count_witness :
    ([[ascii "x", ascii "y", ascii "z"]] ≠ ([] : List (List GoString)) ∧
      (∀ row ∈ table [.WithHeaders [ascii "Column A", ascii "Column B", ascii "Column C"]]
        [[ascii "x", ascii "y", ascii "z"]], row ≠ []) ∧
      (∀ row ∈ table [.WithHeaders [ascii "Column A", ascii "Column B", ascii "Column C"]]
        [[ascii "x", ascii "y", ascii "z"]], ∀ cell ∈ row, newline ∉ cell) ∧
      newline ∉ (resolve
        [.WithHeaders [ascii "Column A", ascii "Column B", ascii "Column C"]]).prefix_ ∧
      newline ∉ (resolve
        [.WithHeaders [ascii "Column A", ascii "Column B", ascii "Column C"]]).separator) ∧
    ∃ out, (Columnize byteWidth _spaces [[ascii "x", ascii "y", ascii "z"]]
        [.WithHeaders [ascii "Column A", ascii "Column B", ascii "Column C"]]).1 = .ok out ∧
      lineCount out = 1 + 1 :=
  ⟨⟨by decide, by decide, by decide, by decide, by decide⟩,
    C5_line_count byteWidth _spaces [[ascii "x", ascii "y", ascii "z"]]
      [.WithHeaders [ascii "Column A", ascii "Column B", ascii "Column C"]]
      Reachable.init (by decide) (by decide) (by decide) (by decide) (by decide)⟩

set_option maxRecDepth 100000 in
/-- Counterexample to C5 as stated. One input row whose cell holds a newline
gives two output lines; and two input rows of which the second has no cell give
one output line. Neither table is empty and neither call uses a header. -/
theorem C5_line_count_counterexample :
    ((Columnize byteWidth _spaces [[ascii "a\nb"]] []).1 = .ok (ascii "a\nb") ∧
      lineCount (ascii "a\nb") ≠ [[ascii "a\nb"]].length + headerCount []) ∧
    ((Columnize byteWidth _spaces [[ascii "a"], []] []).1 = .ok (ascii "a") ∧
      lineCount (ascii "a") ≠ [[ascii "a"], ([] : List GoString)].length + headerCount []) := by
  decide

/-! ## Rows without cells -/

/-- Claim C6, the code at the failing input. A table whose only row has no cell
makes `Columnize` panic, whatever the width measure and the cache: with the
default separator at `make`, whose capacity is negative, and with an empty
separator at `unsafe.String`, whose length is `-1`. -/
theorem C6_panics_on_row_without_cells (sw : GoString → Nat) (spaces : GoString) :
    (Columnize sw spaces [[]] []).1 = .error .makesliceCap ∧
    (Columnize sw spaces [[]] [.WithSeparator []]).1 = .error .unsafeStringLen := by
  constructor <;> rfl

set_option maxRecDepth 100000 in
/-- Claim C7, the code at the failing input. With the prefix `>` and a last row
of no cell, the measured widths are `[1]` and the rendering loop leaves `>a\n>` in the buffer: its final byte is
the prefix of the last row, not a newline, and that byte is what the result
loses. The result followed by a newline is not the buffer. -/
theorem C7_cuts_prefix_of_last_row_without_cells :
    measure byteWidth (table [.WithPrefix (ascii ">")] [[ascii "a"], []])
        (List.replicate 1 0) = .ok [1] ∧
    renderRows byteWidth _spaces (resolve [.WithPrefix (ascii ">")]) [1]
        (table [.WithPrefix (ascii ">")] [[ascii "a"], []]) [] = .ok (ascii ">a\n>") ∧
    (Columnize byteWidth _spaces [[ascii "a"], []] [.WithPrefix (ascii ">")]).1
        = .ok (ascii ">a\n") ∧
    ascii ">a\n" ++ [newline] ≠ ascii ">a\n>" := by
  decide

set_option maxRecDepth 100000 in
/-- Claim C8, the code at the failing input. A header of zero cells adds the
prefix and no newline: with the prefix `>` the result is `>>x`, one line, where
the claim has `>`, a newline and `>x`; with the default prefix the result is
the one of the call without the header option. -/
theorem C8_header_without_cells_adds_no_line :
    (Columnize byteWidth _spaces [[ascii "x"]] [.WithPrefix (ascii ">"), .WithHeaders []]).1
        = .ok (ascii ">>x") ∧
    (Columnize byteWidth _spaces [[ascii "x"]] [.WithPrefix (ascii ">")]).1
        = .ok (ascii ">x") ∧
    lineCount (ascii ">>x") = lineCount (ascii ">x") ∧
    (Columnize byteWidth _spaces [[ascii "x"]] [.WithHeaders []]).1
        = (Columnize byteWidth _spaces [[ascii "x"]] []).1 := by
  decide

/-! ## Resolving the options -/

theorem applyOpts_prefix (opts : List Option) (h : ∀ o ∈ opts, o.isWithPrefix = false)
    (c : config) : (applyOpts opts c).prefix_ = c.prefix_ := by
  induction opts generalizing c with
  | nil => rfl
  | cons o rest ih =>
    have ho := h o (List.mem_cons_self _ _)
    rw [applyOpts_cons, ih (fun x hx => h x (List.mem_cons_of_mem _ hx))]
    cases o with
    | WithPrefix p => simp [Option.isWithPrefix] at ho
    | WithSeparator s => rfl
    | WithHeaders hd => rfl

theorem applyOpts_separator (opts : List Option) (h : ∀ o ∈ opts, o.isWithSeparator = false)
    (c : config) : (applyOpts opts c).separator = c.separator := by
  induction opts generalizing c with
  | nil => rfl
  | cons o rest ih =>
    have ho := h o (List.mem_cons_self _ _)
    rw [applyOpts_cons, ih (fun x hx => h x (List.mem_cons_of_mem _ hx))]
    cases o with
    | WithPrefix p => rfl
    | WithSeparator s => simp [Option.isWithSeparator] at ho
    | WithHeaders hd => rfl

theorem Columnize_congr_opts (sw : GoString → Nat) (spaces : GoString)
    (rows : List (List GoString)) (opts opts2 : List Option)
    (h : applyOpts opts defaultConfig = applyOpts opts2 defaultConfig) :
    Columnize sw spaces rows opts = Columnize sw spaces rows opts2 := by
  simp only [Columnize, h]

theorem apply_same_field (o1 o2 : Option) (h : o1.field = o2.field) (c : config) :
    o2.apply (o1.apply c) = o2.apply c := by
  cases o1 <;> cases o2 <;> first | rfl | (simp [Option.field] at h)

theorem apply_comm (o1 o2 : Option) (h : o1.field ≠ o2.field) (c : config) :
    o2.apply (o1.apply c) = o1.apply (o2.apply c) := by
  cases o1 <;> cases o2 <;> first | rfl | (simp [Option.field] at h)

/-- Claim C9. The options are applied left to right to one configuration and
the last option that touches a field wins. The resolved prefix, separator and
header are the values of the last `WithPrefix`, `WithSeparator` and
`WithHeaders` of the list, and the defaults (empty prefix, two spaces, no
header) when the list has none. So `Columnize(rows, WithSeparator(a),
WithSeparator(b)) = Columnize(rows, WithSeparator(b))`, an option followed by
one on the same field has no effect, and neighbours that set different fields
can be swapped. -/
theorem C9_last_option_wins (sw : GoString → Nat) (spaces : GoString)
    (rows : List (List GoString)) (opts : List Option) :
    (∀ before p after, opts = before ++ .WithPrefix p :: after →
      (∀ o ∈ after, o.isWithPrefix = false) → (resolve opts).prefix_ = p) ∧
    ((∀ o ∈ opts, o.isWithPrefix = false) → (resolve opts).prefix_ = []) ∧
    (∀ before s after, opts = before ++ .WithSeparator s :: after →
      (∀ o ∈ after, o.isWithSeparator = false) → (resolve opts).separator = s) ∧
    ((∀ o ∈ opts, o.isWithSeparator = false) → (resolve opts).separator = [space, space]) ∧
    (∀ before h after, opts = before ++ .WithHeaders h :: after →
      (∀ o ∈ after, o.isWithHeaders = false) → (resolve opts).rows = [h]) ∧
    ((∀ o ∈ opts, o.isWithHeaders = false) → (resolve opts).rows = []) ∧
    (∀ a b, Columnize sw spaces rows [.WithSeparator a, .WithSeparator b] =
      Columnize sw spaces rows [.WithSeparator b]) ∧
    (∀ before o1 o2 after, o1.field = o2.field →
      Columnize sw spaces rows (before ++ o1 :: o2 :: after) =
        Columnize sw spaces rows (before ++ o2 :: after)) ∧
    (∀ before o1 o2 after, o1.field ≠ o2.field →
      Columnize sw spaces rows (before ++ o1 :: o2 :: after) =
        Columnize sw spaces rows (before ++ o2 :: o1 :: after)) := by
  refine ⟨?_, ?_, ?_, ?_, ?_, ?_, ?_, ?_, ?_⟩
  · rintro before p after rfl hafter
    rw [resolve, applyOpts_append, applyOpts_cons, applyOpts_prefix after hafter]
    rfl
  · intro h
    exact applyOpts_prefix opts h defaultConfig
  · rintro before s after rfl hafter
    rw [resolve, applyOpts_append, applyOpts_cons, applyOpts_separator after hafter]
    rfl
  · intro h
    exact applyOpts_separator opts h defaultConfig
  · rintro before h after rfl hafter
    rw [resolve, applyOpts_append, applyOpts_cons, applyOpts_rows after hafter]
    rfl
  · intro h
    exact applyOpts_rows opts h defaultConfig
  · intro a b
    exact Columnize_congr_opts sw spaces rows _ _ rfl
  · intro before o1 o2 after h
    apply Columnize_congr_opts
    rw [applyOpts_append, applyOpts_append, applyOpts_cons, applyOpts_cons, applyOpts_cons,
      apply_same_field o1 o2 h]
  · intro before o1 o2 after h
    apply Columnize_congr_opts
    rw [applyOpts_append, applyOpts_append, applyOpts_cons, applyOpts_cons, applyOpts_cons,
      applyOpts_cons, apply_comm o1 o2 h]

set_option maxRecDepth 100000 in
/-- Claim C10. With no options `Columnize` uses an empty prefix, a separator of
exactly two spaces and no header: the call is the one with `WithPrefix("")` and
`WithSeparator("  ")`, the resolved configuration has these values, the table
rendered is the input table with no row added, and the test
`ListOfStringsInput` gets its expected text. -/
theorem C10_defaults (sw : GoString → Nat) (spaces : GoString)
    (rows : List (List GoString)) :
    Columnize sw spaces rows [] =
      Columnize sw spaces rows [.WithPrefix (ascii ""), .WithSeparator (ascii "  ")] ∧
    resolve [] = { prefix_ := [], separator := [space, space], rows := [] } ∧
    table [] rows = rows ∧
    (Columnize byteWidth _spaces listOfStringsInput []).1 =
      .ok (ascii ("Column A  Column B  Column C\n" ++ "x         y         z")) := by
  refine ⟨Columnize_congr_opts sw spaces rows _ _ rfl, rfl, rfl, by decide⟩

/-! ## The prefix option -/

theorem cellsText_setPrefix (sw : GoString → Nat) (c : config) (p : GoString)
    (width : Nat → Nat) (cells : List GoString) :
    ∀ i, cellsText sw { c with prefix_ := p } width i cells = cellsText sw c width i cells := by
  induction cells with
  | nil => intro i; rfl
  | cons cell rest ih =>
    intro i
    rw [cellsText_cons, cellsText_cons, ih]

theorem table_withPrefix (p : GoString) (rows : List (List GoString)) :
    table [.WithPrefix p] rows = rows := rfl

theorem table_nil_opts (rows : List (List GoString)) : table [] rows = rows := rfl

/-- Claim C11. `WithPrefix` sets the prefix before every line and nothing else.
For a table in which every row has at least one cell, `Columnize(rows)` is the
rows' cells (padded and separated) joined by newlines, and
`Columnize(rows, WithPrefix(p))` is the same lines, each with `p` in front: the
column widths and the padding counts are the same, the measuring pass returns
the same vector and the cache is left in the same state. -/
theorem C11_prefix_before_every_row (sw : GoString → Nat) (spaces : GoString)
    (rows : List (List GoString)) (p : GoString) (hs : Reachable sw spaces)
    (hcells : ∀ row ∈ rows, row ≠ []) :
    (Columnize sw spaces rows []).1 = .ok (List.intercalate [newline]
      (rows.map (cellsText sw defaultConfig (columnWidth sw rows) 0))) ∧
    (Columnize sw spaces rows [.WithPrefix p]).1 = .ok (List.intercalate [newline]
      (rows.map (fun row => p ++ cellsText sw defaultConfig (columnWidth sw rows) 0 row))) ∧
    measure sw (table [.WithPrefix p] rows)
        (List.replicate (countColumns (table [.WithPrefix p] rows)) 0) =
      measure sw (table [] rows) (List.replicate (countColumns (table [] rows)) 0) ∧
    (Columnize sw spaces rows [.WithPrefix p]).2 = (Columnize sw spaces rows []).2 := by
  refine ⟨?_, ?_, rfl, ?_⟩
  · by_cases hrows : rows = []
    · subst hrows; rfl
    · rw [Columnize_joined sw spaces rows [] hs.allSpaces hrows hcells]
      rfl
  · by_cases hrows : rows = []
    · subst hrows; rfl
    · rw [Columnize_joined sw spaces rows [.WithPrefix p] hs.allSpaces hrows hcells,
        table_withPrefix]
      congr 2
      apply List.map_congr_left
      intro row _
      show p ++ cellsText sw { defaultConfig with prefix_ := p } (columnWidth sw rows) 0 row = _
      rw [cellsText_setPrefix]
  · by_cases hrows : rows = []
    · subst hrows; rfl
    · have hl : ¬ (rows.length = 0) := fun e => hrows (List.length_eq_zero.mp e)
      have hc : applyOpts [.WithPrefix p] defaultConfig = { defaultConfig with prefix_ := p } :=
        rfl
      have hd : applyOpts [] defaultConfig = defaultConfig := rfl
      simp only [Columnize, hl, if_false, hc, hd]
      have ht : withHeader { defaultConfig with prefix_ := p } rows
          = withHeader defaultConfig rows := rfl
      rw [ht]
      have he : ∀ W, estimateSize { defaultConfig with prefix_ := p } W
          (withHeader defaultConfig rows) = estimateSize defaultConfig W
          (withHeader defaultConfig rows) := fun W => rfl
      cases measure sw (withHeader defaultConfig rows)
          (List.replicate (countColumns (withHeader defaultConfig rows)) 0) with
      | error e => rfl
      | ok W =>
        simp only [he]
        split
        · rfl
        · split <;> split <;> rfl

set_option maxRecDepth 100000 in
/-- Witness for C11: the test `AlternatePrefixString`. -/
theorem C11_prefix_before_every_row_witness :
    (∀ row ∈ listOfStringsInput, row ≠ []) ∧
    (Columnize byteWidth _spaces listOfStringsInput [.WithPrefix (ascii "  ")]).1 =
      .ok (ascii ("  Column A  Column B  Column C\n" ++ "  x         y         z")) :=
  ⟨by decide,
    (C11_prefix_before_every_row byteWidth _spaces listOfStringsInput (ascii "  ")
      Reachable.init (by decide)).2.1.trans (by decide)⟩

/-! ## Purity -/

theorem Columnize_fst_eq (sw : GoString → Nat) (s1 s2 : GoString)
    (rows : List (List GoString)) (opts : List Option) (h1 : AllSpaces s1)
    (h2 : AllSpaces s2) :
    (Columnize sw s1 rows opts).1 = (Columnize sw s2 rows opts).1 := by
  by_cases hrows : rows = []
  · subst hrows; rfl
  · rw [Columnize_outcome sw s1 rows opts h1 hrows, Columnize_outcome sw s2 rows opts h2 hrows]

/-- Claim C12. `Columnize` is a pure function of the table and the options: from
any two cache states the package can reach, so whatever calls were made before
or in between and whether or not one of them grew the cache, two calls with the
same arguments have the same outcome. -/
theorem C12_pure_function (sw : GoString → Nat) (s1 s2 : GoString)
    (rows : List (List GoString)) (opts : List Option) (h1 : Reachable sw s1)
    (h2 : Reachable sw s2) :
    (Columnize sw s1 rows opts).1 = (Columnize sw s2 rows opts).1 :=
  Columnize_fst_eq sw s1 s2 rows opts h1.allSpaces h2.allSpaces


set_option maxRecDepth 1000000 in
theorem wideCellTable_grows_cache : (Columnize byteWidth _spaces wideCellTable []).2.length = 1025 := by
  decide

/-- Witness for C12: the initial cache, and the cache after a call whose first
column is 1025 wide, which grew it. -/
theorem C12_pure_function_witness :
    (Reachable byteWidth _spaces ∧
      Reachable byteWidth (Columnize byteWidth _spaces wideCellTable []).2) ∧
    (Columnize byteWidth _spaces listOfStringsInput []).1 =
      (Columnize byteWidth (Columnize byteWidth _spaces wideCellTable []).2
        listOfStringsInput []).1 :=
  ⟨⟨Reachable.init, Reachable.call wideCellTable [] Reachable.init⟩,
    C12_pure_function byteWidth _ _ listOfStringsInput [] Reachable.init
      (Reachable.call wideCellTable [] Reachable.init)⟩

/-! ## The width vector -/

theorem foldl_max_attained (f : α → Nat) (xs : List α) (m : Nat) :
    xs.foldl (fun acc x => max acc (f x)) m = m ∨
      ∃ x ∈ xs, f x = xs.foldl (fun acc x => max acc (f x)) m := by
  induction xs generalizing m with
  | nil => exact Or.inl rfl
  | cons y ys ih =>
    simp only [List.foldl_cons]
    rcases ih (max m (f y)) with h | ⟨x, hx, hfx⟩
    · rw [h]
      rcases le_total m (f y) with hle | hle
      · right
        exact ⟨y, List.mem_cons_self _ _, (max_eq_right hle).symm⟩
      · left
        exact max_eq_left hle
    · right
      exact ⟨x, List.mem_cons_of_mem _ hx, hfx⟩

theorem countColumns_attained (rows : List (List GoString)) (h : rows ≠ []) :
    ∃ row ∈ rows, row.length = countColumns rows := by
  rcases foldl_max_attained List.length rows 0 with h0 | hx
  · obtain ⟨r, hr⟩ := List.exists_mem_of_ne_nil rows h
    refine ⟨r, hr, ?_⟩
    have hle := length_le_countColumns rows r hr
    have : countColumns rows = 0 := h0
    omega
  · exact hx

theorem columnWidth_attained (sw : GoString → Nat) (rows : List (List GoString)) (i : Nat)
    (h : 0 < columnWidth sw rows i) :
    ∃ row ∈ rows, ∃ cell, row.get? i = some cell ∧ sw cell = columnWidth sw rows i := by
  induction rows with
  | nil => simp [columnWidth_nil] at h
  | cons r rs ih =>
    rw [columnWidth_cons] at h ⊢
    cases hget : r.get? i with
    | none =>
      rw [hget] at h
      obtain ⟨row, hrow, cell, hc, hw⟩ := ih h
      exact ⟨row, List.mem_cons_of_mem _ hrow, cell, hc, hw⟩
    | some c =>
      rw [hget] at h
      simp only at h ⊢
      rcases le_total (sw c) (columnWidth sw rs i) with hle | hle
      · rw [max_eq_right hle] at h ⊢
        obtain ⟨row, hrow, cell, hc, hw⟩ := ih h
        exact ⟨row, List.mem_cons_of_mem _ hrow, cell, hc, hw⟩
      · rw [max_eq_left hle]
        exact ⟨r, List.mem_cons_self _ _, c, hget, rfl⟩

theorem Columnize_snd_of_measure (sw : GoString → Nat) (spaces : GoString)
    (rows : List (List GoString)) (opts : List Option) (hrows : rows ≠ []) (W : List Nat)
    (hW : measure sw (table opts rows) (List.replicate (countColumns (table opts rows)) 0)
      = .ok W) :
    (Columnize sw spaces rows opts).2 = growSpaces spaces (widthMax W) := by
  have hl : ¬ (rows.length = 0) := fun e => hrows (List.length_eq_zero.mp e)
  unfold table resolve at hW
  simp only [Columnize, hl, if_false, hW]
  split
  · rfl
  · split <;> rfl

/-- Claim C14. For a table with at least one row, the measuring pass of
`Columnize` returns a width vector `W` (the one the growth check of the call
then uses) whose length is the largest cell count of a row, header included,
and whose entry `i` is the maximum display width of the cells at index `i`:
it is at least the display width of every cell at that index, and when it is
positive some cell at that index has exactly that width. -/
theorem C14_width_vector (sw : GoString → Nat) (spaces : GoString)
    (rows : List (List GoString)) (opts : List Option) (hrows : rows ≠ []) :
    ∃ W, measure sw (table opts rows)
        (List.replicate (countColumns (table opts rows)) 0) = .ok W ∧
      (Columnize sw spaces rows opts).2 = growSpaces spaces (widthMax W) ∧
      (∀ row ∈ table opts rows, row.length ≤ W.length) ∧
      (∃ row ∈ table opts rows, row.length = W.length) ∧
      ∀ i, i < W.length →
        W.get? i = some (columnWidth sw (table opts rows) i) ∧
        (∀ row ∈ table opts rows, ∀ cell, row.get? i = some cell →
          sw cell ≤ columnWidth sw (table opts rows) i) ∧
        (0 < columnWidth sw (table opts rows) i →
          ∃ row ∈ table opts rows, ∃ cell, row.get? i = some cell ∧
            sw cell = columnWidth sw (table opts rows) i) := by
  obtain ⟨W, hW, hlen, hget⟩ := measure_table sw (table opts rows)
  refine ⟨W, hW, Columnize_snd_of_measure sw spaces rows opts hrows W hW, ?_, ?_, ?_⟩
  · intro row hr
    rw [hlen]
    exact length_le_countColumns _ row hr
  · rw [hlen]
    exact countColumns_attained _ (table_ne_nil opts rows hrows)
  · intro i hi
    exact ⟨hget i (by omega),
      fun row hr cell hc => columnWidth_ge sw _ row hr i cell hc,
      columnWidth_attained sw _ i⟩

set_option maxRecDepth 100000 in
/-- Witness for C14: the ragged table of the test `UnmatchedColumnCounts`, whose
width vector is `[8, 8, 8, 7]`. -/
theorem C14_width_vector_witness :
    unmatchedColumnCounts ≠ [] ∧
    (∃ W, measure byteWidth (table [] unmatchedColumnCounts)
        (List.replicate (countColumns (table [] unmatchedColumnCounts)) 0) = .ok W ∧
      W.length = 4) ∧
    measure byteWidth (table [] unmatchedColumnCounts)
        (List.replicate (countColumns (table [] unmatchedColumnCounts)) 0) = .ok [8, 8, 8, 7] :=
  ⟨by decide,
    (C14_width_vector byteWidth _spaces unmatchedColumnCounts [] (by decide)).imp
      (fun W h => ⟨h.1, by
        have h2 : measure byteWidth (table [] unmatchedColumnCounts)
          (List.replicate (countColumns (table [] unmatchedColumnCounts)) 0)
            = .ok [8, 8, 8, 7] := by decide
        have h3 := h.1
        rw [h2] at h3
        cases h3
        rfl⟩),
    by decide⟩

/-! ## The invariant of the padding cache -/

theorem length_le_growSpaces (spaces : GoString) (m : Nat) :
    spaces.length ≤ (growSpaces spaces m).length := by
  unfold growSpaces
  split
  · simp only [List.length_replicate]; omega
  · exact le_refl _

theorem Columnize_snd_length (sw : GoString → Nat) (spaces : GoString)
    (rows : List (List GoString)) (opts : List Option) :
    spaces.length ≤ (Columnize sw spaces rows opts).2.length := by
  rcases Columnize_snd sw spaces rows opts with h | ⟨m, h⟩
  · rw [h]
  · rw [h]; exact length_le_growSpaces spaces m

theorem Columnize_snd_allSpaces (sw : GoString → Nat) (spaces : GoString)
    (rows : List (List GoString)) (opts : List Option) (hs : AllSpaces spaces) :
    AllSpaces (Columnize sw spaces rows opts).2 := by
  rcases Columnize_snd sw spaces rows opts with h | ⟨m, h⟩
  · rw [h]; exact hs
  · rw [h]; exact AllSpaces_growSpaces spaces m hs

theorem Reachable.length_ge {sw : GoString → Nat} {spaces : GoString}
    (h : Reachable sw spaces) : 1024 ≤ spaces.length := by
  induction h with
  | init =>
    show 1024 ≤ (List.replicate 1024 space).length
    rw [List.length_replicate]
  | call rows opts _ ih => exact le_trans ih (Columnize_snd_length sw _ rows opts)

/-- Claim C15. In every state the cache can reach through calls of `Columnize`
it holds only space bytes (byte 32, which is not the tab) and at least 1024 of
them; a call never shortens it and leaves only spaces in it; after the growth
check of a call on a table with a row it is at least as long as every column of
that call is wide; and the slice `_spaces[:cnt]` taken for a padding of
`cnt = w - k` columns, `w` one of the widths of the call and `k ≤ w`, is exactly
`cnt` space bytes. -/
theorem C15_cache_invariant (sw : GoString → Nat) (spaces : GoString)
    (hs : Reachable sw spaces) :
    (AllSpaces spaces ∧ space ≠ 9 ∧ 1024 ≤ spaces.length) ∧
    (∀ rows opts, spaces.length ≤ (Columnize sw spaces rows opts).2.length ∧
      AllSpaces (Columnize sw spaces rows opts).2) ∧
    (∀ rows opts, rows ≠ [] → ∀ i, i < countColumns (table opts rows) →
      columnWidth sw (table opts rows) i ≤ (Columnize sw spaces rows opts).2.length) ∧
    (∀ (widths : List Nat) (w k : Nat), w ∈ widths → k ≤ w →
      sliceTo (growSpaces spaces (widthMax widths)) ((w : Int) - (k : Int)) =
        .ok (List.replicate (w - k) space)) := by
  refine ⟨⟨hs.allSpaces, by decide, hs.length_ge⟩, ?_, ?_, ?_⟩
  · intro rows opts
    exact ⟨Columnize_snd_length sw spaces rows opts,
      Columnize_snd_allSpaces sw spaces rows opts hs.allSpaces⟩
  · intro rows opts hrows i hi
    obtain ⟨W, hW, hlen, hget⟩ := measure_table sw (table opts rows)
    rw [Columnize_snd_of_measure sw spaces rows opts hrows W hW]
    have h1 := hget i hi
    rw [List.get?_eq_getElem?] at h1
    exact le_trans (le_widthMax W _ (List.getElem?_mem h1)) (le_length_growSpaces spaces _)
  · intro widths w k hw hk
    exact sliceTo_ok _ w k (AllSpaces_growSpaces spaces _ hs.allSpaces) hk
      (le_trans (le_widthMax widths w hw) (le_length_growSpaces spaces _))

/-- Witness for C15: the cache left by a call whose first column is 1025 wide;
it was grown to 1025 spaces. -/
theorem C15_cache_invariant_witness :
    Reachable byteWidth (Columnize byteWidth _spaces wideCellTable []).2 ∧
    (Columnize byteWidth _spaces wideCellTable []).2.length = 1025 ∧
    AllSpaces (Columnize byteWidth _spaces wideCellTable []).2 :=
  ⟨Reachable.call wideCellTable [] Reachable.init, wideCellTable_grows_cache,
    (C15_cache_invariant byteWidth _ (Reachable.call wideCellTable [] Reachable.init)).1.1⟩

/-! ## When a call fails -/

theorem Columnize_run (sw : GoString → Nat) (spaces : GoString)
    (rows : List (List GoString)) (opts : List Option) (hs : AllSpaces spaces) :
    ∃ W, measure sw (table opts rows)
        (List.replicate (countColumns (table opts rows)) 0) = .ok W ∧
      W.length = countColumns (table opts rows) ∧
      renderRows sw (growSpaces spaces (widthMax W)) (resolve opts) W (table opts rows) [] =
        .ok (((table opts rows).map
          (rowBytes sw (resolve opts) (columnWidth sw (table opts rows)))).flatten) := by
  obtain ⟨W, hW, hlen, hget⟩ := measure_table sw (table opts rows)
  refine ⟨W, hW, hlen, ?_⟩
  have hrender := renderRows_ok sw (growSpaces spaces (widthMax W)) (resolve opts) W
    (columnWidth sw (table opts rows)) (AllSpaces_growSpaces spaces _ hs)
    (fun k hk => hget k (by omega))
    (fun k hk => by
      have h1 := hget k (by omega)
      have h2 : columnWidth sw (table opts rows) k ∈ W := by
        rw [List.get?_eq_getElem?] at h1
        exact List.getElem?_mem h1
      exact le_trans (le_widthMax W _ h2) (le_length_growSpaces spaces _))
    (table opts rows) []
    (fun row hr => by rw [hlen]; exact length_le_countColumns _ row hr)
    (fun row hr j cell hj => columnWidth_ge sw _ row hr j cell hj)
  rw [hrender]
  simp

theorem unsafeString_nil : unsafeString [] = .error .unsafeStringLen := rfl

theorem rowBytes_nil (sw : GoString → Nat) (c : config) (width : Nat → Nat) :
    rowBytes sw c width [] = c.prefix_ := by
  simp [rowBytes]

theorem flatten_rowBytes_of_no_cells (sw : GoString → Nat) (c : config) (width : Nat → Nat)
    (rows : List (List GoString)) (h : ∀ row ∈ rows, row = []) :
    (rows.map (rowBytes sw c width)).flatten = (List.replicate rows.length c.prefix_).flatten := by
  induction rows with
  | nil => rfl
  | cons r rs ih =>
    have hr : r = [] := h r (List.mem_cons_self _ _)
    simp only [List.map_cons, List.flatten_cons, List.length_cons, List.replicate_succ]
    rw [ih (fun row hrow => h row (List.mem_cons_of_mem _ hrow)), hr, rowBytes_nil]

theorem flatten_replicate_eq_nil (n : Nat) (p : GoString) (hn : n ≠ 0) :
    (List.replicate n p).flatten = [] ↔ p = [] := by
  constructor
  · intro h
    exact List.flatten_eq_nil_iff.mp h p (List.mem_replicate.mpr ⟨hn, rfl⟩)
  · intro h
    apply List.flatten_eq_nil_iff.mpr
    intro l hl
    rw [(List.mem_replicate.mp hl).2, h]

/-- With options that are not `nil` and no limit on what `make` grants: for a
table with at least one row, `Columnize` fails at run time exactly when every row, the header included, has zero cells and the separator
is not empty or the prefix is empty: in the first case `make` gets a negative
capacity, in the second `unsafe.String` gets the length `-1`. When some row has
a cell nothing fails: the measuring pass indexes `widths` in range, the
capacity is not negative, the rendering pass indexes `widths` and slices
`_spaces` in range, and the final length `len(b) - 1` is not negative. Integer
overflow is left aside. -/
theorem Columnize_fails_iff_no_cells (sw : GoString → Nat) (spaces : GoString)
    (rows : List (List GoString)) (opts : List Option) (hs : AllSpaces spaces)
    (hrows : rows ≠ []) :
    ((∃ e, (Columnize sw spaces rows opts).1 = .error e) ↔
      (∀ row ∈ table opts rows, row = []) ∧
        ((resolve opts).separator ≠ [] ∨ (resolve opts).prefix_ = [])) ∧
    ((∀ row ∈ table opts rows, row = []) → (resolve opts).separator ≠ [] →
      (Columnize sw spaces rows opts).1 = .error .makesliceCap) ∧
    ((∀ row ∈ table opts rows, row = []) → (resolve opts).separator = [] →
      (resolve opts).prefix_ = [] →
      (Columnize sw spaces rows opts).1 = .error .unsafeStringLen) ∧
    ((∃ row ∈ table opts rows, row ≠ []) →
      ∃ W b, measure sw (table opts rows)
          (List.replicate (countColumns (table opts rows)) 0) = .ok W ∧
        0 ≤ estimateSize (resolve opts) W (table opts rows) ∧
        renderRows sw (growSpaces spaces (widthMax W)) (resolve opts) W (table opts rows) []
          = .ok b ∧
        0 ≤ (b.length : Int) - 1 ∧
        (Columnize sw spaces rows opts).1 = .ok (b.take (b.length - 1))) := by
  have hout := Columnize_outcome sw spaces rows opts hs hrows
  have hT := table_ne_nil opts rows hrows
  have hTlen : (table opts rows).length ≠ 0 := fun e => hT (List.length_eq_zero.mp e)
  have hmake : (∀ row ∈ table opts rows, row = []) → (resolve opts).separator ≠ [] →
      (Columnize sw spaces rows opts).1 = .error .makesliceCap := by
    intro hall hsep
    rw [hout, if_pos ⟨(countColumns_eq_zero _).mpr hall, hsep⟩]
  have hstr : (∀ row ∈ table opts rows, row = []) → (resolve opts).separator = [] →
      (resolve opts).prefix_ = [] →
      (Columnize sw spaces rows opts).1 = .error .unsafeStringLen := by
    intro hall hsep hpre
    rw [hout, if_neg (fun h => h.2 hsep), flatten_rowBytes_of_no_cells sw _ _ _ hall,
      (flatten_replicate_eq_nil _ _ hTlen).mpr hpre]
    rfl
  have hgood : (∃ row ∈ table opts rows, row ≠ []) →
      ∃ W b, measure sw (table opts rows)
          (List.replicate (countColumns (table opts rows)) 0) = .ok W ∧
        0 ≤ estimateSize (resolve opts) W (table opts rows) ∧
        renderRows sw (growSpaces spaces (widthMax W)) (resolve opts) W (table opts rows) []
          = .ok b ∧
        0 ≤ (b.length : Int) - 1 ∧
        (Columnize sw spaces rows opts).1 = .ok (b.take (b.length - 1)) := by
    rintro ⟨row, hrow, hne⟩
    obtain ⟨W, hW, hlen, hrender⟩ := Columnize_run sw spaces rows opts hs
    have hcol : countColumns (table opts rows) ≠ 0 := countColumns_ne_zero _ row hrow hne
    have hb := rowBytes_flatten_ne_nil sw (resolve opts) (columnWidth sw (table opts rows))
      _ row hrow hne
    have hblen := List.length_pos.mpr hb
    refine ⟨W, _, hW, ?_, hrender, by omega, ?_⟩
    · by_contra hneg
      have := (estimateSize_neg_iff (resolve opts) W _ hT).mp (by omega)
      omega
    · rw [hout, if_neg (fun h => hcol h.1)]
      have h1 : ¬ ((((table opts rows).map (rowBytes sw (resolve opts)
          (columnWidth sw (table opts rows)))).flatten.length : Int) - 1 < 0) := by omega
      simp only [unsafeString, h1, if_false]
      congr 2
      omega
  refine ⟨⟨?_, ?_⟩, hmake, hstr, hgood⟩
  · rintro ⟨e, he⟩
    by_cases hall : ∀ row ∈ table opts rows, row = []
    · refine ⟨hall, ?_⟩
      by_cases hsep : (resolve opts).separator = []
      · right
        by_contra hpre
        rw [hout, if_neg (fun h => h.2 hsep), flatten_rowBytes_of_no_cells sw _ _ _ hall] at he
        have hne : (List.replicate (table opts rows).length (resolve opts).prefix_).flatten
            ≠ [] := fun h => hpre ((flatten_replicate_eq_nil _ _ hTlen).mp h)
        obtain ⟨out, last, hok, _⟩ := unsafeString_of_ne_nil _ hne
        rw [hok] at he
        cases he
      · exact Or.inl hsep
    · exfalso
      have hex : ∃ row ∈ table opts rows, row ≠ [] := by
        by_contra hno
        exact hall (fun row hrow => by
          by_contra hne
          exact hno ⟨row, hrow, hne⟩)
      obtain ⟨W, b, _, _, _, _, hok⟩ := hgood hex
      rw [hok] at he
      cases he
  · rintro ⟨hall, hsep | hpre⟩
    · exact ⟨_, hmake hall hsep⟩
    · by_cases hsep : (resolve opts).separator = []
      · exact ⟨_, hstr hall hsep hpre⟩
      · exact ⟨_, hmake hall hsep⟩

set_option maxRecDepth 100000 in
/-- An instance of `Columnize_fails_iff_no_cells`: a table of two rows without
cells. With the default separator the call fails at `make`; with an empty
separator and the prefix `>` it returns `>`. -/
theorem Columnize_fails_iff_no_cells_example :
    ([[], []] : List (List GoString)) ≠ [] ∧
    ((∃ e, (Columnize byteWidth _spaces [[], []] []).1 = .error e) ↔
      (∀ row ∈ table [] [[], []], row = []) ∧
        ((resolve []).separator ≠ [] ∨ (resolve []).prefix_ = [])) ∧
    (Columnize byteWidth _spaces [[], []] []).1 = .error .makesliceCap ∧
    (Columnize byteWidth _spaces [[], []] [.WithSeparator [], .WithPrefix (ascii ">")]).1
      = .ok (ascii ">") :=
  ⟨by decide,
    (Columnize_fails_iff_no_cells byteWidth _spaces [[], []] [] (AllSpaces_replicate 1024)
      (by decide)).1,
    by decide, by decide⟩

/-! ## The display-width measure -/

theorem decodeRunes_nil : decodeRunes [] = [] := rfl

theorem decodeRunes_ascii (b : UInt8) (h : b.toNat < 0x80) : decodeRunes [b] = [b.toNat] := by
  simp [decodeRunes, decodeRunesFuel, decodeOne, h]

/-- Claim C13. The display-width measure returns 0 for the empty string and 1
for every string that is a single printable ASCII character (a byte from 0x20
to 0x7E), given that the width table classes these characters as neither
zero-width nor wide. -/
theorem C13_stringWidth_empty_and_ascii (wide zeroWidth : Nat → Bool)
    (htable : ∀ r, 0x20 ≤ r → r ≤ 0x7E → zeroWidth r = false ∧ wide r = false) :
    stringWidth wide zeroWidth [] = 0 ∧
    ∀ b : UInt8, 0x20 ≤ b.toNat → b.toNat ≤ 0x7E → stringWidth wide zeroWidth [b] = 1 := by
  refine ⟨rfl, ?_⟩
  intro b hlo hhi
  have ht := htable b.toNat hlo hhi
  simp [stringWidth, decodeRunes_ascii b (by omega), runeWidth, ht.1, ht.2]

theorem sampleTable_ascii (r : Nat) (hlo : 0x20 ≤ r) (hhi : r ≤ 0x7E) :
    sampleZeroWidth r = false ∧ sampleWide r = false := by
  constructor
  · simp only [sampleZeroWidth, decide_eq_false_iff_not]
    omega
  · simp only [sampleWide, decide_eq_false_iff_not]
    omega

/-- Witness for C13: the two cases of the test `TestStringWidth`, the empty
string and `x`. -/
theorem C13_stringWidth_empty_and_ascii_witness :
    (∀ r, 0x20 ≤ r → r ≤ 0x7E → sampleZeroWidth r = false ∧ sampleWide r = false) ∧
    stringWidth sampleWide sampleZeroWidth (ascii "") = 0 ∧
    stringWidth sampleWide sampleZeroWidth (ascii "x") = 1 :=
  ⟨sampleTable_ascii, (C13_stringWidth_empty_and_ascii sampleWide sampleZeroWidth
      sampleTable_ascii).1,
    (C13_stringWidth_empty_and_ascii sampleWide sampleZeroWidth sampleTable_ascii).2 120
      (by decide) (by decide)⟩

/-! ## Padding and display width -/

theorem rowBytes_at_nonfinal (sw : GoString → Nat) (c : config) (width : Nat → Nat)
    (row : List GoString) (i : Nat) (cell : GoString) (hcell : row.get? i = some cell)
    (hnext : i + 1 < row.length) :
    rowBytes sw c width row = textBefore sw c width row i ++ cell
      ++ List.replicate (width i - sw cell) space ++ c.separator
      ++ (cellsText sw c width (i + 1) (row.drop (i + 1)) ++ [newline]) := by
  have hi : i < row.length := by omega
  have hcell2 : row[i] = cell := by
    rw [List.get?_eq_getElem?, List.getElem?_eq_getElem hi] at hcell
    exact Option.some.inj hcell
  have hne : row ≠ [] := by
    intro h; rw [h] at hi; simp at hi
  have hne2 : row.drop (i + 1) ≠ [] := by
    intro h
    have := congrArg List.length h
    simp at this
    omega
  rw [rowBytes_of_ne_nil sw c width row hne, rowText_split sw c width row i hi,
    List.drop_eq_getElem_cons hi, cellsText_cons, hcell2]
  simp [hne2]

theorem decodeRunesFuel_spaces (n : Nat) :
    decodeRunesFuel n (List.replicate n space) = List.replicate n 32 := by
  induction n with
  | zero => rfl
  | succ n ih =>
    have h1 : decodeOne (space :: List.replicate n space) = (32, 1) := rfl
    simp only [List.replicate_succ, decodeRunesFuel, h1, List.drop_succ_cons, List.drop_zero, ih]

theorem stringWidth_spaces (wide zeroWidth : Nat → Bool) (h : runeWidth wide zeroWidth 32 = 1)
    (n : Nat) : stringWidth wide zeroWidth (List.replicate n space) = n := by
  unfold stringWidth decodeRunes
  rw [List.length_replicate, decodeRunesFuel_spaces, List.map_replicate, h]
  simp

/-- In the bytes appended for a row the padding is computed from display width.
In one column `i` of the rendered table, take a cell of display width `n` (such
as `n` ASCII characters) and a cell of display width `n + 1` (such as `n` characters of
which exactly one is double-width), neither the last cell of its row. The
column is at least `n + 1` wide, say `n + 1 + k`; in the bytes of its row the
narrower cell is followed by exactly `k + 1` spaces and the separator, the
other one by exactly `k` spaces and the separator, one space fewer; and the
summed display width of what precedes the next column is the same in both
rows. The call returns, and its result is the bytes of the rows less the last
byte. The display width of a run of `m` spaces is taken to be `m`. -/
theorem rowBytes_padding_from_display_width (sw : GoString → Nat)
    (hsp : ∀ m, sw (List.replicate m space) = m) (spaces : GoString)
    (rows : List (List GoString)) (opts : List Option) (hs : Reachable sw spaces)
    (hrows : rows ≠ []) (rowA rowW : List GoString)
    (hA : rowA ∈ table opts rows) (hW : rowW ∈ table opts rows)
    (i : Nat) (cellA cellW : GoString)
    (hcA : rowA.get? i = some cellA) (hcW : rowW.get? i = some cellW)
    (hnA : i + 1 < rowA.length) (hnW : i + 1 < rowW.length)
    (n : Nat) (hwA : sw cellA = n) (hwW : sw cellW = n + 1) :
    ∃ k restA restW,
      columnWidth sw (table opts rows) i = n + 1 + k ∧
      rowBytes sw (resolve opts) (columnWidth sw (table opts rows)) rowA =
        textBefore sw (resolve opts) (columnWidth sw (table opts rows)) rowA i ++ cellA
          ++ List.replicate (k + 1) space ++ (resolve opts).separator ++ restA ∧
      rowBytes sw (resolve opts) (columnWidth sw (table opts rows)) rowW =
        textBefore sw (resolve opts) (columnWidth sw (table opts rows)) rowW i ++ cellW
          ++ List.replicate k space ++ (resolve opts).separator ++ restW ∧
      widthBefore sw (resolve opts) (columnWidth sw (table opts rows)) rowA (i + 1) =
        widthBefore sw (resolve opts) (columnWidth sw (table opts rows)) rowW (i + 1) ∧
      ∃ out last, (Columnize sw spaces rows opts).1 = .ok out ∧
        out ++ [last] = ((table opts rows).map
          (rowBytes sw (resolve opts) (columnWidth sw (table opts rows)))).flatten := by
  have hge := columnWidth_ge sw _ rowW hW i cellW hcW
  rw [hwW] at hge
  have hneW : rowW ≠ [] := by
    intro h; rw [h] at hnW; simp at hnW
  have hcol : ¬ (countColumns (table opts rows) = 0 ∧ (resolve opts).separator ≠ []) :=
    fun h => countColumns_ne_zero _ rowW hW hneW h.1
  refine ⟨columnWidth sw (table opts rows) i - (n + 1),
    cellsText sw (resolve opts) (columnWidth sw (table opts rows)) (i + 1)
      (rowA.drop (i + 1)) ++ [newline],
    cellsText sw (resolve opts) (columnWidth sw (table opts rows)) (i + 1)
      (rowW.drop (i + 1)) ++ [newline], by omega, ?_, ?_, ?_, ?_⟩
  · rw [rowBytes_at_nonfinal sw _ _ rowA i cellA hcA hnA, hwA]
    have : columnWidth sw (table opts rows) i - n
        = columnWidth sw (table opts rows) i - (n + 1) + 1 := by omega
    rw [this]
  · rw [rowBytes_at_nonfinal sw _ _ rowW i cellW hcW hnW, hwW]
  · rw [widthBefore_eq_columnOffset sw hsp _ _ rowA
        (fun j cl hj => columnWidth_ge sw _ rowA hA j cl hj) (i + 1) (by omega),
      widthBefore_eq_columnOffset sw hsp _ _ rowW
        (fun j cl hj => columnWidth_ge sw _ rowW hW j cl hj) (i + 1) (by omega)]
  · rw [Columnize_outcome sw spaces rows opts hs.allSpaces hrows, if_neg hcol]
    exact unsafeString_of_ne_nil _ (rowBytes_flatten_ne_nil sw _ _ _ rowW hW hneW)

set_option maxRecDepth 100000 in
/-- The table `wideCharTable` measured by the modelled `stringWidth`: `日x`
gets five spaces of padding and `ab` six. -/
theorem wideCharTable_output :
    (Columnize (stringWidth sampleWide sampleZeroWidth) _spaces wideCharTable []).1 =
      .ok (ascii "Column A  B\n" ++ [0xE6, 0x97, 0xA5, 0x78] ++ ascii "       y\n"
        ++ ascii "ab        z") := by
  decide

set_option maxRecDepth 100000 in
/-- An instance of `rowBytes_padding_from_display_width`: in `wideCharTable`, measured by the modelled `stringWidth`,
the cell `日x` (two characters, one of them wide, display width 3) and the cell
`ab` (two ASCII characters, display width 2) stand in column 0. -/
theorem rowBytes_padding_from_display_width_example :
    ((∀ m, stringWidth sampleWide sampleZeroWidth (List.replicate m space) = m) ∧
      wideCharTable ≠ [] ∧
      [ascii "ab", ascii "z"] ∈ table [] wideCharTable ∧
      [[0xE6, 0x97, 0xA5, 0x78], ascii "y"] ∈ table [] wideCharTable ∧
      decodeRunes [0xE6, 0x97, 0xA5, 0x78] = [0x65E5, 0x78] ∧
      sampleWide 0x65E5 = true ∧
      stringWidth sampleWide sampleZeroWidth (ascii "ab") = 2 ∧
      stringWidth sampleWide sampleZeroWidth [0xE6, 0x97, 0xA5, 0x78] = 2 + 1) ∧
    ∃ k, columnWidth (stringWidth sampleWide sampleZeroWidth) (table [] wideCharTable) 0
      = 2 + 1 + k :=
  ⟨⟨stringWidth_spaces sampleWide sampleZeroWidth (by decide), by decide, by decide, by decide,
      by decide, by decide, by decide, by decide⟩,
    (rowBytes_padding_from_display_width (stringWidth sampleWide sampleZeroWidth)
      (stringWidth_spaces sampleWide sampleZeroWidth (by decide)) _spaces wideCharTable []
      Reachable.init (by decide) [ascii "ab", ascii "z"] [[0xE6, 0x97, 0xA5, 0x78], ascii "y"]
      (by decide) (by decide) 0 (ascii "ab") [0xE6, 0x97, 0xA5, 0x78] (by decide) (by decide)
      (by decide) (by decide) 2 (by decide) (by decide)).imp
      (fun _ h => h.elim (fun _ h2 => h2.elim (fun _ h3 => h3.1)))⟩

/-! ## The capacity estimate -/

theorem foldl_add_eq_sum (xs : List Nat) (a : Nat) :
    xs.foldl (fun s w => s + w) a = a + xs.sum := by
  induction xs generalizing a with
  | nil => simp
  | cons x rest ih =>
    simp only [List.foldl_cons, List.sum_cons]
    rw [ih]
    omega

theorem widthSum_eq_sum (widths : List Nat) : widthSum widths = widths.sum := by
  unfold widthSum
  rw [foldl_add_eq_sum]
  omega

theorem sum_eq_widthsFrom (width : Nat → Nat) (W : List Nat) :
    ∀ i, (∀ j, j < W.length → W.get? j = some (width (i + j))) →
      W.sum = widthsFrom width i W.length := by
  induction W with
  | nil => intro i _; rfl
  | cons w rest ih =>
    intro i h
    have h0 : w = width i := by
      have := h 0 (by simp)
      simpa using this
    have hrest := ih (i + 1) (fun j hj => by
      have := h (j + 1) (by simp only [List.length_cons]; omega)
      rw [show i + 1 + j = i + (j + 1) by omega]
      simpa using this)
    simp only [List.sum_cons, List.length_cons, widthsFrom]
    rw [hrest, h0]

theorem widthsFrom_le (width : Nat → Nat) (k : Nat) :
    ∀ i m, widthsFrom width i k ≤ widthsFrom width i (k + m) := by
  induction k with
  | zero => intro i m; simp [widthsFrom]
  | succ k ih =>
    intro i m
    rw [show k + 1 + m = (k + m) + 1 by omega]
    simp only [widthsFrom]
    exact Nat.add_le_add_left (ih (i + 1) m) _

theorem cellsText_length_le (sw : GoString → Nat) (c : config) (width : Nat → Nat)
    (cells : List GoString) :
    ∀ i, cells ≠ [] →
      (∀ j cell, cells.get? j = some cell → cell.length ≤ sw cell ∧ sw cell ≤ width (i + j)) →
      (cellsText sw c width i cells).length + c.separator.length ≤
        widthsFrom width i cells.length + c.separator.length * cells.length := by
  induction cells with
  | nil => intro i h _; exact absurd rfl h
  | cons cell rest ih =>
    intro i _ hc
    have h0 := hc 0 cell rfl
    rw [cellsText_cons]
    cases rest with
    | nil =>
      simp only [if_true, List.append_nil, List.length_singleton, widthsFrom]
      have : cell.length ≤ width i := le_trans h0.1 (by simpa using h0.2)
      omega
    | cons next rest2 =>
      have hrec := ih (i + 1) (by simp) (fun j cl hj => by
        have := hc (j + 1) cl (by simpa using hj)
        rw [show i + 1 + j = i + (j + 1) by omega]
        exact this)
      have hw : sw cell ≤ width i := by simpa using h0.2
      simp only [List.cons_ne_nil, if_false, List.length_append, List.length_replicate,
        List.length_cons, widthsFrom, Nat.mul_succ] at hrec ⊢
      omega

theorem rowBytes_length_le (sw : GoString → Nat) (c : config) (width : Nat → Nat)
    (columns : Nat) (row : List GoString) (hlen : row.length ≤ columns) (hcol : 1 ≤ columns)
    (hc : ∀ j cell, row.get? j = some cell → cell.length ≤ sw cell ∧ sw cell ≤ width j) :
    (rowBytes sw c width row).length ≤
      c.prefix_.length + 1 + (c.separator.length * (columns - 1) + widthsFrom width 0 columns) := by
  by_cases hrow : row = []
  · subst hrow
    rw [rowBytes_nil]
    omega
  · have h1 := cellsText_length_le sw c width row 0 hrow
      (fun j cell hj => by simpa using hc j cell hj)
    have hk : 1 ≤ row.length := List.length_pos.mpr hrow
    obtain ⟨m, hm⟩ : ∃ m, columns = row.length + m := ⟨columns - row.length, by omega⟩
    have h2 := widthsFrom_le width row.length 0 m
    rw [← hm] at h2
    obtain ⟨k, hk2⟩ : ∃ k, row.length = k + 1 := ⟨row.length - 1, by omega⟩
    have h3 : c.separator.length * k ≤ c.separator.length * (columns - 1) :=
      Nat.mul_le_mul_left _ (by omega)
    rw [hk2, Nat.mul_succ] at h1
    rw [hk2] at h2
    rw [rowBytes_of_ne_nil sw c width row hrow, rowText]
    simp only [List.length_append, List.length_singleton]
    omega

theorem flatten_map_length_le (f : List GoString → GoString) (bound : Nat)
    (rows : List (List GoString)) (h : ∀ row ∈ rows, (f row).length ≤ bound) :
    ((rows.map f).flatten).length ≤ rows.length * bound := by
  induction rows with
  | nil => simp
  | cons r rs ih =>
    have h1 := h r (List.mem_cons_self _ _)
    have h2 := ih (fun row hrow => h row (List.mem_cons_of_mem _ hrow))
    simp only [List.map_cons, List.flatten_cons, List.length_append, List.length_cons,
      Nat.succ_mul]
    omega

/-- Claim C18, amended. For a table with at least one row in which some row has
a cell and every cell has at most as many bytes as display columns (ASCII
text), the number of bytes the rendering loop appends to the buffer is at most
the estimated capacity plus, for each row, the length of the prefix and one
byte for the newline. The buffer is the one the result of the call is cut
from. -/
theorem C18_capacity_estimate (sw : GoString → Nat) (spaces : GoString)
    (rows : List (List GoString)) (opts : List Option) (hs : Reachable sw spaces)
    (hrows : rows ≠ []) (hcell : ∃ row ∈ table opts rows, row ≠ [])
    (hbytes : ∀ row ∈ table opts rows, ∀ cell ∈ row, cell.length ≤ sw cell) :
    ∃ W b, measure sw (table opts rows)
        (List.replicate (countColumns (table opts rows)) 0) = .ok W ∧
      renderRows sw (growSpaces spaces (widthMax W)) (resolve opts) W (table opts rows) []
        = .ok b ∧
      (Columnize sw spaces rows opts).1 = unsafeString b ∧
      (b.length : Int) ≤ estimateSize (resolve opts) W (table opts rows)
        + ((table opts rows).length : Int) * (((resolve opts).prefix_.length : Int) + 1) := by
  obtain ⟨row0, hrow0, hne0⟩ := hcell
  obtain ⟨W, hW, hlen, hrender⟩ := Columnize_run sw spaces rows opts hs.allSpaces
  obtain ⟨W2, hW2, _, hget⟩ := measure_table sw (table opts rows)
  rw [hW] at hW2
  cases hW2
  have hcol : 1 ≤ countColumns (table opts rows) :=
    Nat.pos_of_ne_zero (countColumns_ne_zero _ row0 hrow0 hne0)
  have hsum : widthSum W = widthsFrom (columnWidth sw (table opts rows)) 0
      (countColumns (table opts rows)) := by
    rw [widthSum_eq_sum, sum_eq_widthsFrom (columnWidth sw (table opts rows)) W 0
      (fun j hj => by simpa using hget j (by omega)), hlen]
  have hnat := flatten_map_length_le
    (rowBytes sw (resolve opts) (columnWidth sw (table opts rows)))
    ((resolve opts).prefix_.length + 1 + ((resolve opts).separator.length
      * (countColumns (table opts rows) - 1)
        + widthsFrom (columnWidth sw (table opts rows)) 0 (countColumns (table opts rows))))
    (table opts rows)
    (fun row hrow => rowBytes_length_le sw _ _ _ row (length_le_countColumns _ row hrow) hcol
      (fun j cell hj => ⟨hbytes row hrow cell (by
          rw [List.get?_eq_getElem?] at hj
          exact List.getElem?_mem hj),
        columnWidth_ge sw _ row hrow j cell hj⟩))
  refine ⟨W, _, hW, hrender, ?_, ?_⟩
  · rw [Columnize_outcome sw spaces rows opts hs.allSpaces hrows,
      if_neg (fun h => countColumns_ne_zero _ row0 hrow0 hne0 h.1)]
  have hcast : ((countColumns (table opts rows) : Int) - 1)
      = ((countColumns (table opts rows) - 1 : Nat) : Int) := by omega
  unfold estimateSize
  rw [hlen, hsum, hcast]
  have := Int.ofNat_le.mpr hnat
  push_cast at this ⊢
  linarith

set_option maxRecDepth 100000 in
/-- Witness for C18: the table of the test `ListOfStringsInput`; the estimate is
`(2 * 2 + 24) * 2 = 56` and the loop appends 49 bytes. -/
theorem C18_capacity_estimate_witness :
    (listOfStringsInput ≠ [] ∧ (∃ row ∈ table [] listOfStringsInput, row ≠ []) ∧
      ∀ row ∈ table [] listOfStringsInput, ∀ cell ∈ row, cell.length ≤ byteWidth cell) ∧
    ∃ W b, measure byteWidth (table [] listOfStringsInput)
        (List.replicate (countColumns (table [] listOfStringsInput)) 0) = .ok W ∧
      renderRows byteWidth (growSpaces _spaces (widthMax W)) (resolve []) W
        (table [] listOfStringsInput) [] = .ok b ∧
      (Columnize byteWidth _spaces listOfStringsInput []).1 = unsafeString b ∧
      (b.length : Int) ≤ estimateSize (resolve []) W (table [] listOfStringsInput)
        + ((table [] listOfStringsInput).length : Int)
          * (((resolve []).prefix_.length : Int) + 1) :=
  ⟨⟨by decide, by decide, fun _ _ _ _ => le_refl _⟩,
    C18_capacity_estimate byteWidth _spaces listOfStringsInput [] Reachable.init (by decide)
      (by decide) (fun _ _ _ _ => le_refl _)⟩

set_option maxRecDepth 100000 in
/-- Counterexample to C18 as stated: for the table of the single cell `a` the
estimated capacity is 1 and the loop appends the two bytes `a` and newline.
For the single cell of the three bytes E2 8C 98 (one character of display width
1) the capacity is 1 again and the loop appends four bytes. -/
theorem C18_capacity_estimate_counterexample :
    measure byteWidth (table [] [[ascii "a"]])
        (List.replicate (countColumns (table [] [[ascii "a"]])) 0) = .ok [1] ∧
    estimateSize (resolve []) [1] (table [] [[ascii "a"]]) = 1 ∧
    renderRows byteWidth (growSpaces _spaces (widthMax [1])) (resolve []) [1]
        (table [] [[ascii "a"]]) [] = .ok (ascii "a\n") ∧
    ¬ (((ascii "a\n").length : Int) ≤ estimateSize (resolve []) [1] (table [] [[ascii "a"]])) ∧
    measure (stringWidth sampleWide sampleZeroWidth) (table [] [[[0xE2, 0x8C, 0x98]]])
        (List.replicate (countColumns (table [] [[[0xE2, 0x8C, 0x98]]])) 0) = .ok [1] ∧
    renderRows (stringWidth sampleWide sampleZeroWidth) (growSpaces _spaces (widthMax [1]))
        (resolve []) [1] (table [] [[[0xE2, 0x8C, 0x98]]]) [] = .ok [0xE2, 0x8C, 0x98, newline] ∧
    ¬ ((([0xE2, 0x8C, 0x98, newline] : GoString).length : Int) ≤
      estimateSize (resolve []) [1] (table [] [[[0xE2, 0x8C, 0x98]]]) + 1 * (0 + 1)) := by
  decide

/-! ## Rows without cells and the alignment of the returned text -/

set_option maxRecDepth 100000 in
/-- Claim C2, the code at the failing input. For the table `[[a, b], [], [c, d]]`
with the prefix `>` the row without cells adds its prefix and no newline, so the
returned text has the lines `>a  b` and `>>c  d`: what precedes the cell at
index 1 has display width 4 on the first line and 5 on the second, where the
claim has displayWidth(prefix) + columnWidth(0) + displayWidth(separator) = 4
for both. -/
theorem C2_row_without_cells_breaks_alignment :
    (Columnize byteWidth _spaces rowWithoutCellsTable [.WithPrefix (ascii ">")]).1 =
      .ok (ascii ">a  b\n>>c  d") ∧
    splitLines (ascii ">a  b\n>>c  d") =
      [ascii ">a  " ++ ascii "b", ascii ">>c  " ++ ascii "d"] ∧
    byteWidth (ascii ">a  ") = 4 ∧
    byteWidth (ascii ">>c  ") = 5 ∧
    columnOffset byteWidth (resolve [.WithPrefix (ascii ">")])
      (columnWidth byteWidth (table [.WithPrefix (ascii ">")] rowWithoutCellsTable)) 1 = 4 := by
  decide

theorem sum_of_one_wide (widths : List Nat) (n : Nat)
    (h : widths.Perm (2 :: List.replicate n 1)) : widths.sum = n + 2 := by
  rw [h.sum_eq]
  simp
  omega

/-- Under the modelled measure a text of `n + 1` characters of which exactly one
is double-width and the others have width one has display width `n + 2`, and a
text of `n + 1` characters of width one has display width `n + 1`. -/
theorem stringWidth_of_one_wide (wide zeroWidth : Nat → Bool) (s t : GoString) (n : Nat)
    (hs : ((decodeRunes s).map (runeWidth wide zeroWidth)).Perm (2 :: List.replicate n 1))
    (ht : (decodeRunes t).map (runeWidth wide zeroWidth) = List.replicate (n + 1) 1) :
    stringWidth wide zeroWidth s = n + 2 ∧ stringWidth wide zeroWidth t = n + 1 := by
  constructor
  · exact sum_of_one_wide _ n hs
  · unfold stringWidth
    rw [ht]
    simp

set_option maxRecDepth 100000 in
/-- Claim C16, the code at the failing input. In `wideCharGapTable` with the
prefix `>`, measured by the modelled `stringWidth`, the cell `日x` (two
characters, one of them wide, display width 3) and the cell `ab` (two ASCII
characters, display width 2) stand in column 0, which is 8 wide. The first is
followed by 5 spaces and the separator, the second by 6 spaces and the
separator, one space more. But the row without cells before the row of `ab`
adds its prefix and no newline: on the lines of the returned text the next
column starts at display offset 11 after `日x` and at 12 after `ab`. -/
theorem C16_row_without_cells_shifts_next_column :
    (Columnize (stringWidth sampleWide sampleZeroWidth) _spaces wideCharGapTable
        [.WithPrefix (ascii ">")]).1 =
      .ok (ascii ">Column A  B\n>" ++ [0xE6, 0x97, 0xA5, 0x78] ++ ascii "       y\n"
        ++ ascii ">>ab        z") ∧
    splitLines (ascii ">Column A  B\n>" ++ [0xE6, 0x97, 0xA5, 0x78] ++ ascii "       y\n"
        ++ ascii ">>ab        z") =
      [ascii ">Column A  B",
       (ascii ">" ++ [0xE6, 0x97, 0xA5, 0x78] ++ List.replicate 5 space ++ ascii "  ")
         ++ ascii "y",
       (ascii ">>ab" ++ List.replicate 6 space ++ ascii "  ") ++ ascii "z"] ∧
    stringWidth sampleWide sampleZeroWidth [0xE6, 0x97, 0xA5, 0x78] = 3 ∧
    stringWidth sampleWide sampleZeroWidth (ascii "ab") = 2 ∧
    columnWidth (stringWidth sampleWide sampleZeroWidth)
      (table [.WithPrefix (ascii ">")] wideCharGapTable) 0 = 8 ∧
    stringWidth sampleWide sampleZeroWidth
      (ascii ">" ++ [0xE6, 0x97, 0xA5, 0x78] ++ List.replicate 5 space ++ ascii "  ") = 11 ∧
    stringWidth sampleWide sampleZeroWidth
      (ascii ">>ab" ++ List.replicate 6 space ++ ascii "  ") = 12 := by
  decide

/-! ## Nil options and the allocation limit -/

theorem applyOptionValues_closures (cs : List Option) :
    ∀ c, applyOptionValues (cs.map .closure) c = .ok (applyOpts cs c) := by
  induction cs with
  | nil => intro c; rfl
  | cons o rest ih =>
    intro c
    simp only [List.map_cons, applyOptionValues, applyOpts_cons]
    exact ih _

theorem applyOptionValues_nil (opts : List OptionValue) (h : OptionValue.nil ∈ opts) :
    ∀ c, applyOptionValues opts c = .error .nilFuncCall := by
  induction opts with
  | nil => cases h
  | cons v rest ih =>
    intro c
    cases v with
    | nil => rfl
    | closure o =>
      simp only [applyOptionValues]
      rcases List.mem_cons.mp h with h1 | h1
      · cases h1
      · exact ih h1 _

theorem closures_of_nil_not_mem (opts : List OptionValue) (h : OptionValue.nil ∉ opts) :
    ∃ cs : List Option, opts = cs.map .closure := by
  induction opts with
  | nil => exact ⟨[], rfl⟩
  | cons v rest ih =>
    obtain ⟨cs, hcs⟩ := ih (fun hm => h (List.mem_cons_of_mem _ hm))
    cases v with
    | nil => exact absurd (List.mem_cons_self _ _) h
    | closure o => exact ⟨o :: cs, by rw [hcs]; rfl⟩

theorem nil_not_mem_closures (cs : List Option) :
    OptionValue.nil ∉ cs.map OptionValue.closure := by
  intro h
  obtain ⟨o, _, ho⟩ := List.mem_map.mp h
  cases ho

theorem measure_eq_widthVector (sw : GoString → Nat) (rows : List (List GoString)) :
    measure sw rows (List.replicate (countColumns rows) 0) = .ok (widthVector sw rows) := by
  obtain ⟨W, hW, hlen, hget⟩ := measure_table sw rows
  rw [hW]
  congr 1
  apply List.ext_getElem?
  intro j
  unfold widthVector
  by_cases hj : j < countColumns rows
  · have := hget j hj
    rw [List.get?_eq_getElem?] at this
    rw [this]
    simp [hj]
  · rw [List.getElem?_eq_none (by rw [hlen]; omega),
      List.getElem?_eq_none (by simp only [List.length_map, List.length_range]; omega)]

theorem ColumnizeRuntime_nil (maxAlloc : Nat) (sw : GoString → Nat) (spaces : GoString)
    (rows : List (List GoString)) (opts : List OptionValue) (hrows : rows ≠ [])
    (h : OptionValue.nil ∈ opts) :
    (ColumnizeRuntime maxAlloc sw spaces rows opts).1 = .error .nilFuncCall := by
  have hl : ¬ (rows.length = 0) := fun e => hrows (List.length_eq_zero.mp e)
  simp only [ColumnizeRuntime, hl, if_false, applyOptionValues_nil opts h]

theorem ColumnizeRuntime_over_limit (maxAlloc : Nat) (sw : GoString → Nat)
    (spaces : GoString) (rows : List (List GoString)) (cs : List Option) (hrows : rows ≠ [])
    (h : (maxAlloc : Int) < capacity sw cs rows) :
    (ColumnizeRuntime maxAlloc sw spaces rows (cs.map .closure)).1 = .error .makesliceCap := by
  have hl : ¬ (rows.length = 0) := fun e => hrows (List.length_eq_zero.mp e)
  have hm := measure_eq_widthVector sw (table cs rows)
  unfold capacity at h
  unfold table resolve at hm h
  simp only [ColumnizeRuntime, hl, if_false, applyOptionValues_closures, hm, makeslice,
    h, or_true, if_true]

theorem ColumnizeRuntime_within_limit (maxAlloc : Nat) (sw : GoString → Nat)
    (spaces : GoString) (rows : List (List GoString)) (cs : List Option)
    (h : capacity sw cs rows ≤ (maxAlloc : Int)) :
    ColumnizeRuntime maxAlloc sw spaces rows (cs.map .closure) =
      Columnize sw spaces rows cs := by
  by_cases hrows : rows = []
  · subst hrows; rfl
  · have hl : ¬ (rows.length = 0) := fun e => hrows (List.length_eq_zero.mp e)
    have hm := measure_eq_widthVector sw (table cs rows)
    unfold capacity at h
    unfold table resolve at hm h
    have h2 : ¬ ((maxAlloc : Int) < estimateSize (applyOpts cs defaultConfig)
        (widthVector sw (withHeader (applyOpts cs defaultConfig) rows))
        (withHeader (applyOpts cs defaultConfig) rows)) := by omega
    simp only [ColumnizeRuntime, Columnize, hl, if_false, applyOptionValues_closures, hm,
      makeslice, h2, or_false]
    by_cases hneg : estimateSize (applyOpts cs defaultConfig)
        (widthVector sw (withHeader (applyOpts cs defaultConfig) rows))
        (withHeader (applyOpts cs defaultConfig) rows) < 0
    · simp only [hneg, if_true]
    · simp only [hneg, if_false]

theorem capacity_of_no_cells (sw : GoString → Nat) (cs : List Option)
    (rows : List (List GoString)) (hall : ∀ row ∈ table cs rows, row = [])
    (hsep : (resolve cs).separator = []) : capacity sw cs rows = 0 := by
  have h0 : countColumns (table cs rows) = 0 := (countColumns_eq_zero _).mpr hall
  simp [capacity, estimateSize, widthVector, h0, hsep, widthSum_nil]

theorem ColumnizeRuntime_fails_iff (maxAlloc : Nat) (sw : GoString → Nat) (spaces : GoString)
    (rows : List (List GoString)) (cs : List Option) (hs : AllSpaces spaces)
    (hrows : rows ≠ []) :
    (∃ e, (ColumnizeRuntime maxAlloc sw spaces rows (cs.map .closure)).1 = .error e) ↔
      ((maxAlloc : Int) < capacity sw cs rows ∨
        ((∀ row ∈ table cs rows, row = []) ∧
          ((resolve cs).separator ≠ [] ∨ (resolve cs).prefix_ = []))) := by
  have hideal := (Columnize_fails_iff_no_cells sw spaces rows cs hs hrows).1
  by_cases hlim : (maxAlloc : Int) < capacity sw cs rows
  · constructor
    · intro _; exact Or.inl hlim
    · intro _
      exact ⟨_, ColumnizeRuntime_over_limit maxAlloc sw spaces rows cs hrows hlim⟩
  · rw [ColumnizeRuntime_within_limit maxAlloc sw spaces rows cs (by omega)]
    constructor
    · intro h; exact Or.inr (hideal.mp h)
    · rintro (h | h)
      · exact absurd h hlim
      · exact hideal.mpr h

/-- Claim C17, amended. For a table with at least one row, from a cache of
spaces (as every reachable cache is), `Columnize` fails at run time exactly when
an option is `nil`, or the capacity it estimates is above what `make` grants, or
every row, the header included, has zero cells and the separator is not empty
or the prefix is empty. A `nil` option fails at the call `opt(&config)`; a
capacity above the limit, or a negative one (no cell, separator not empty),
fails at `make`; no cell with an empty separator and an empty prefix fails at
`unsafe.String` with the length `-1`. When no option is `nil`, some row has a
cell and the capacity is within the limit, nothing fails: the measuring pass
indexes `widths` in range, the capacity is between 0 and the limit, the
rendering pass indexes `widths` and slices `_spaces` in range, and the final
length `len(b) - 1` is not negative. Integer overflow and the exhaustion of
memory elsewhere than at `make` are left aside. -/
theorem C17_fails_iff (maxAlloc : Nat) (sw : GoString → Nat) (spaces : GoString)
    (rows : List (List GoString)) (opts : List OptionValue) (hs : AllSpaces spaces)
    (hrows : rows ≠ []) :
    ((∃ e, (ColumnizeRuntime maxAlloc sw spaces rows opts).1 = .error e) ↔
      (OptionValue.nil ∈ opts ∨
        ∃ cs, opts = cs.map .closure ∧
          ((maxAlloc : Int) < capacity sw cs rows ∨
            ((∀ row ∈ table cs rows, row = []) ∧
              ((resolve cs).separator ≠ [] ∨ (resolve cs).prefix_ = []))))) ∧
    (OptionValue.nil ∈ opts →
      (ColumnizeRuntime maxAlloc sw spaces rows opts).1 = .error .nilFuncCall) ∧
    (∀ cs, opts = cs.map .closure →
      ((maxAlloc : Int) < capacity sw cs rows →
        (ColumnizeRuntime maxAlloc sw spaces rows opts).1 = .error .makesliceCap) ∧
      ((∀ row ∈ table cs rows, row = []) → (resolve cs).separator ≠ [] →
        (ColumnizeRuntime maxAlloc sw spaces rows opts).1 = .error .makesliceCap) ∧
      ((∀ row ∈ table cs rows, row = []) → (resolve cs).separator = [] →
        (resolve cs).prefix_ = [] →
        (ColumnizeRuntime maxAlloc sw spaces rows opts).1 = .error .unsafeStringLen) ∧
      ((∃ row ∈ table cs rows, row ≠ []) → capacity sw cs rows ≤ (maxAlloc : Int) →
        ∃ W b, measure sw (table cs rows)
            (List.replicate (countColumns (table cs rows)) 0) = .ok W ∧
          0 ≤ estimateSize (resolve cs) W (table cs rows) ∧
          estimateSize (resolve cs) W (table cs rows) ≤ (maxAlloc : Int) ∧
          renderRows sw (growSpaces spaces (widthMax W)) (resolve cs) W (table cs rows) []
            = .ok b ∧
          0 ≤ (b.length : Int) - 1 ∧
          (ColumnizeRuntime maxAlloc sw spaces rows opts).1 = .ok (b.take (b.length - 1)))) := by
  refine ⟨⟨?_, ?_⟩, ColumnizeRuntime_nil maxAlloc sw spaces rows opts hrows, ?_⟩
  · intro herr
    by_cases hnil : OptionValue.nil ∈ opts
    · exact Or.inl hnil
    · obtain ⟨cs, rfl⟩ := closures_of_nil_not_mem opts hnil
      exact Or.inr ⟨cs, rfl,
        (ColumnizeRuntime_fails_iff maxAlloc sw spaces rows cs hs hrows).mp herr⟩
  · rintro (hnil | ⟨cs, rfl, h⟩)
    · exact ⟨_, ColumnizeRuntime_nil maxAlloc sw spaces rows opts hrows hnil⟩
    · exact (ColumnizeRuntime_fails_iff maxAlloc sw spaces rows cs hs hrows).mpr h
  · rintro cs rfl
    obtain ⟨_, hmake, hstr, hgood⟩ := Columnize_fails_iff_no_cells sw spaces rows cs hs hrows
    refine ⟨ColumnizeRuntime_over_limit maxAlloc sw spaces rows cs hrows, ?_, ?_, ?_⟩
    · intro hall hsep
      by_cases hlim : (maxAlloc : Int) < capacity sw cs rows
      · exact ColumnizeRuntime_over_limit maxAlloc sw spaces rows cs hrows hlim
      · rw [ColumnizeRuntime_within_limit maxAlloc sw spaces rows cs (by omega)]
        exact hmake hall hsep
    · intro hall hsep hpre
      have hcap := capacity_of_no_cells sw cs rows hall hsep
      rw [ColumnizeRuntime_within_limit maxAlloc sw spaces rows cs (by omega)]
      exact hstr hall hsep hpre
    · intro hex hlim
      obtain ⟨W, b, hW, h0, hrender, hb, hok⟩ := hgood hex
      have hWV : W = widthVector sw (table cs rows) := by
        have := measure_eq_widthVector sw (table cs rows)
        rw [hW] at this
        exact Except.ok.inj this
      refine ⟨W, b, hW, h0, ?_, hrender, hb, ?_⟩
      · rw [hWV]; exact hlim
      · rw [ColumnizeRuntime_within_limit maxAlloc sw spaces rows cs hlim]
        exact hok

set_option maxRecDepth 100000 in
/-- Witness for C17: from the initial cache and with the limit 2^48, the table
of two rows without cells fails for the default separator and returns `>` for an
empty separator with the prefix `>`. -/
theorem C17_fails_iff_witness :
    (AllSpaces _spaces ∧ ([[], []] : List (List GoString)) ≠ []) ∧
    ((∃ e, (ColumnizeRuntime (2 ^ 48) byteWidth _spaces [[], []] []).1 = .error e) ↔
      (OptionValue.nil ∈ ([] : List OptionValue) ∨
        ∃ cs, ([] : List OptionValue) = cs.map .closure ∧
          (((2 ^ 48 : Nat) : Int) < capacity byteWidth cs [[], []] ∨
            ((∀ row ∈ table cs [[], []], row = []) ∧
              ((resolve cs).separator ≠ [] ∨ (resolve cs).prefix_ = []))))) ∧
    (ColumnizeRuntime (2 ^ 48) byteWidth _spaces [[], []] []).1 = .error .makesliceCap ∧
    (ColumnizeRuntime (2 ^ 48) byteWidth _spaces [[], []]
      [.closure (.WithSeparator []), .closure (.WithPrefix (ascii ">"))]).1 = .ok (ascii ">") :=
  ⟨⟨AllSpaces_replicate 1024, by decide⟩,
    (C17_fails_iff (2 ^ 48) byteWidth _spaces [[], []] [] (AllSpaces_replicate 1024)
      (by decide)).1,
    by decide, by decide⟩


theorem raggedTable_ne_nil (w n : Nat) : raggedTable w n ≠ [] := by
  unfold raggedTable
  exact List.cons_ne_nil _ _

theorem raggedTable_length (w n : Nat) : (raggedTable w n).length = n + 1 := by
  unfold raggedTable
  rw [List.length_cons, List.length_replicate]

theorem raggedTable_row_length (w n : Nat) (row : List GoString)
    (h : row ∈ raggedTable w n) : row.length = 1 := by
  unfold raggedTable at h
  rcases List.mem_cons.mp h with h1 | h1
  · rw [h1]; rfl
  · rw [(List.mem_replicate.mp h1).2]; rfl

theorem countColumns_raggedTable (w n : Nat) : countColumns (raggedTable w n) = 1 := by
  obtain ⟨row, hrow, hlen⟩ := countColumns_attained _ (raggedTable_ne_nil w n)
  rw [← hlen]
  exact raggedTable_row_length w n row hrow

theorem capacity_raggedTable (w n : Nat) :
    ((w * (n + 1) : Nat) : Int) ≤ capacity byteWidth [] (raggedTable w n) := by
  have hge : w ≤ columnWidth byteWidth (raggedTable w n) 0 := by
    have h := columnWidth_ge byteWidth (raggedTable w n) [List.replicate w 97]
      (by unfold raggedTable; exact List.mem_cons_self _ _) 0 (List.replicate w 97) rfl
    have hw : byteWidth (List.replicate w 97) = w := List.length_replicate _ _
    rw [hw] at h
    exact h
  have hcap : capacity byteWidth [] (raggedTable w n) =
      ((columnWidth byteWidth (raggedTable w n) 0 : Nat) : Int) * ((n + 1 : Nat) : Int) := by
    unfold capacity
    rw [table_nil_opts]
    unfold estimateSize widthVector
    rw [countColumns_raggedTable, raggedTable_length]
    have hr : List.range 1 = [0] := rfl
    rw [hr]
    simp [widthSum]
  rw [hcap]
  have h1 : ((w : Nat) : Int) ≤ ((columnWidth byteWidth (raggedTable w n) 0 : Nat) : Int) :=
    Int.ofNat_le.mpr hge
  have h2 : (0 : Int) ≤ ((n + 1 : Nat) : Int) := Int.ofNat_nonneg _
  push_cast
  push_cast at h1 h2
  exact Int.mul_le_mul_of_nonneg_right h1 h2

set_option maxRecDepth 100000 in
/-- Counterexample to C17 as stated. With the limit 2^48 of 64-bit Linux:
`Columnize([][]string{{"a"}}, nil)` fails at the call of the `nil` option, and
the table of one cell of 1000000 bytes followed by 1000000000 rows of the cell
`x` fails at `make`, its estimated capacity being at least 1000000 * 1000000001;
in both tables every row has a cell. -/
theorem C17_fails_iff_counterexample :
    ((ColumnizeRuntime (2 ^ 48) byteWidth _spaces [[ascii "a"]] [.nil]).1
        = .error .nilFuncCall ∧
      ∀ row ∈ ([[ascii "a"]] : List (List GoString)), row ≠ []) ∧
    ((ColumnizeRuntime (2 ^ 48) byteWidth _spaces (raggedTable 1000000 1000000000) []).1
        = .error .makesliceCap ∧
      ∀ row ∈ table [] (raggedTable 1000000 1000000000), row ≠ []) := by
  refine ⟨⟨by decide, by decide⟩, ?_, ?_⟩
  · refine ColumnizeRuntime_over_limit (2 ^ 48) byteWidth _spaces
      (raggedTable 1000000 1000000000) [] (raggedTable_ne_nil _ _) ?_
    refine lt_of_lt_of_le ?_ (capacity_raggedTable 1000000 1000000000)
    norm_num
  · intro row hrow hnil
    have := raggedTable_row_length 1000000 1000000000 row hrow
    rw [hnil] at this
    cases this

end columnize
